import Mathlib

/-!
# git-daily-line-stats: a shallow embedding of `src/main.cpp`

The program walks every branch of a git repository, keeps the commits that lie
in a trailing window of `days` days before the most recent commit, and adds up,
per UTC calendar day and per author, the number of commits and the lines added
and removed.

Conventions of the embedding:

* `std::string` is `String`; `operator<` on strings is `stringLess`
  (lexicographic comparison of the characters, then of the lengths).
* `unsigned int` (`ui`) is a `Nat` reduced modulo `2 ^ 32` after every
  arithmetic operation; `git_time_t` (a signed 64-bit integer) is an `Int`, and
  the difference of two time stamps wraps to 64 bits (`int64Wrap`), as it does
  in the compiled program.
* `std::map<string, V>` is a list of key/value pairs kept in ascending key
  order (`StdMap`), the order in which the program iterates over it.
* `std::unordered_set<CommitEntry, CommitEntryHash>` is the list of its
  elements (`CommitSet`); `std::hash` is a parameter (`StdHash`).
* libgit2 is an external collaborator: a commit object is the record of what
  the program reads from it (`GitCommit`), a branch is the outcome of the
  calls made while walking it (`Branch`).
* the C library's `gmtime` and `strftime` are modelled by `gmtime` and
  `strftimeYmd` as glibc implements them: `gmtime` returns the null pointer
  (`none`) when the year does not fit an `int`, and the program, which passes
  that pointer to `strftime` unchecked, is then killed (`none` as the result of
  `commitDate`, `runStep`, `run` and `main`).
-/

namespace GitDailyLineStats

set_option maxRecDepth 8000

/-! ## Machine integers -/

/-- The number of values of an `unsigned int` (`typedef unsigned int ui`). -/
def uiModulus : Nat := 4294967296

/-- Multiplication of two `unsigned int`s. -/
def uiMul (a b : Nat) : Nat := (a * b) % uiModulus

/-- The assignment `x += y` for an `unsigned int x` and an unsigned `y`. -/
def uiAdd (a b : Nat) : Nat := (a + b) % uiModulus

/-- Conversion of an `int` to `unsigned int` (argument passing in `main`). -/
def intToUi (i : Int) : Nat := (i % 4294967296).toNat

/-- The value of an `int` computation whose exact result is `x`: it wraps to 32
bits (two's complement). -/
def int32Wrap (x : Int) : Int := (x + 2147483648) % 4294967296 - 2147483648

/-- The value of an `int64_t` computation whose exact result is `x`: it wraps
to 64 bits (two's complement). -/
def int64Wrap (x : Int) : Int :=
  (x + 9223372036854775808) % 18446744073709551616 - 9223372036854775808

/-! ## Strings and their order -/

/-- Lexicographic comparison of two character sequences, the order of
`std::string::operator<`. -/
def lexLt : List Char → List Char → Bool
  | [], [] => false
  | [], _ :: _ => true
  | _ :: _, [] => false
  | a :: as, b :: bs =>
    if a.toNat < b.toNat then true
    else if b.toNat < a.toNat then false
    else lexLt as bs

/-- The comparison `a < b` of two `std::string`s. -/
def stringLess (a b : String) : Bool := lexLt a.data b.data

/-! ## `std::map<string, V>` -/

/-- A `std::map` keyed by strings: its entries in iteration order. -/
abbrev StdMap (V : Type) := List (String × V)

/-- The call `m.emplace(k, v)`: inserts `(k, v)` at its place in the key order
unless an equivalent key is present, in which case the map is unchanged. -/
def mapEmplace {V : Type} : StdMap V → String → V → StdMap V
  | [], k, v => [(k, v)]
  | (k', v') :: rest, k, v =>
    if stringLess k k' then (k, v) :: (k', v') :: rest
    else if stringLess k' k then (k', v') :: mapEmplace rest k v
    else (k', v') :: rest

/-- An update, through the reference `emplace(...).first->second`, of the value
stored under `k`. -/
def mapModify {V : Type} : StdMap V → String → (V → V) → StdMap V
  | [], _, _ => []
  | (k', v') :: rest, k, f =>
    if stringLess k k' || stringLess k' k then (k', v') :: mapModify rest k f
    else (k', f v') :: rest

/-- The value stored under `k`, if any. -/
def mapFind {V : Type} : StdMap V → String → Option V
  | [], _ => none
  | (k', v') :: rest, k =>
    if stringLess k k' || stringLess k' k then mapFind rest k else some v'

/-! ## Data model (`LineStats`, `DateLineStats`, `CommitEntry`) -/

/-- The class `LineStats`. -/
structure LineStats where
  author : String
  commits : Nat
  linesAdded : Nat
  linesRemoved : Nat
  deriving DecidableEq, Repr

/-- The constructor `LineStats(author)`. -/
def LineStats.new (author : String) : LineStats := ⟨author, 0, 0, 0⟩

/-- The class `DateLineStats`. -/
structure DateLineStats where
  date : String
  lineStats : StdMap LineStats
  deriving DecidableEq, Repr

/-- The constructor `DateLineStats(date)`. -/
def DateLineStats.new (date : String) : DateLineStats := ⟨date, []⟩

/-- The member `dateLineStatsMap` of `RepoStats`. -/
abbrev ReportModel := StdMap DateLineStats

/-- What the program reads from a `git_commit` object. -/
structure GitCommit where
  /-- The result of `git_oid_tostr_s(git_commit_id(commit))`. -/
  id : String
  /-- The result of `git_commit_author(commit)->name`. -/
  authorName : String
  /-- The result of `git_commit_time(commit)`. -/
  time : Int
  /-- The result of `git_commit_parentcount(commit)`. -/
  parentCount : Nat
  /-- The result of `git_diff_stats_insertions` for the diff from the tree of
  parent 0 to the tree of the commit. -/
  insertions : Nat
  /-- The result of `git_diff_stats_deletions` for the same diff. -/
  deletions : Nat
  deriving DecidableEq, Repr

/-- The class `CommitEntry`. -/
structure CommitEntry where
  commitId : String
  author : String
  time : Int
  commit : GitCommit
  deriving DecidableEq, Repr

/-- The member `CommitEntry::operator==`. -/
def CommitEntry.eq (self rhs : CommitEntry) : Bool :=
  self.commitId == rhs.commitId || (self.author == rhs.author && self.time == rhs.time)

/-- The two instances of `std::hash` used by `CommitEntryHash`. -/
structure StdHash where
  hashString : String → Nat
  hashTime : Int → Nat

/-- The function object `CommitEntryHash`. -/
def CommitEntryHash (h : StdHash) (e : CommitEntry) : Nat :=
  h.hashString e.commitId ^^^ h.hashString e.author ^^^ h.hashTime e.time

/-- The type `CommitSet`: the elements of the unordered set, oldest insertion
first. The order in which the program iterates over an unordered set is not
specified; the report does not depend on it (section *Order of processing*). -/
abbrev CommitSet := List CommitEntry

/-- The call `commits->emplace(e)`: the element is dropped when the set holds an
element with the same hash code that `operator==` declares equal to it, and is
added otherwise. -/
def setEmplace (h : StdHash) (commits : CommitSet) (e : CommitEntry) : CommitSet :=
  if commits.any (fun x => CommitEntryHash h x == CommitEntryHash h e && e.eq x) then commits
  else commits ++ [e]

/-! ## libgit2 as seen by the program -/

/-- One branch returned by `git_branch_next`. -/
structure Branch where
  /-- Whether `git_revwalk_new` returns 0. -/
  revwalkNew : Bool
  /-- Whether `git_revwalk_push` returns 0 for the head of the branch. -/
  revwalkPush : Bool
  /-- The ids produced by `git_revwalk_next`, each with the outcome of
  `git_commit_lookup` (`none` when the lookup fails). -/
  walk : List (Option GitCommit)

/-- An opened repository: its local and remote-tracking branches. -/
structure Repository where
  branches : List Branch

/-- The call `git_repository_open`: `none` when it does not return 0. -/
abbrev Git := String → Option Repository

/-! ## `RepoStats::findCommits` -/

/-- The inner loop of `findCommits` (lines 156-168) over one branch: the state
is the pair of `latestCommitTime` and `commitList`. -/
def walkBranch : List (Option GitCommit) → Int × List GitCommit →
    Except String (Int × List GitCommit)
  | [], st => .ok st
  | none :: _, _ => .error "Could not read commit"
  | some commit :: rest, (latestCommitTime, commitList) =>
    walkBranch rest
      (if commit.time > latestCommitTime then commit.time else latestCommitTime,
        commitList ++ [commit])

/-- The outer loop of `findCommits` (lines 136-171) over the branches. -/
def scanBranches : List Branch → Int × List GitCommit →
    Except String (Int × List GitCommit)
  | [], st => .ok st
  | b :: rest, st =>
    if !b.revwalkNew then .error "Could not initialize walker"
    else if !b.revwalkPush then .error "Could not iterate branch"
    else
      match walkBranch b.walk st with
      | .error e => .error e
      | .ok st' => scanBranches rest st'

/-- The test `latestCommitTime - commitTime <= nDays*24*3600` of line 175: the
difference is a `git_time_t` and wraps to 64 bits, the product is an
`unsigned int` and wraps to 32 bits, and the comparison is made on 64-bit signed
values. -/
def inWindow (latestCommitTime : Int) (nDays : Nat) (commitTime : Int) : Bool :=
  int64Wrap (latestCommitTime - commitTime) ≤ ((uiMul (uiMul nDays 24) 3600 : Nat) : Int)

/-- The entry `CommitEntry(git_oid_tostr_s(commitId), authorName,
git_commit_time(commit), commit)` built at lines 180-185. -/
def entryOf (commit : GitCommit) : CommitEntry :=
  ⟨commit.id, commit.authorName, commit.time, commit⟩

/-- The second loop of `findCommits` (lines 173-187). -/
def collectWindow (h : StdHash) (latestCommitTime : Int) (nDays : Nat)
    (commitList : List GitCommit) : CommitSet :=
  commitList.foldl
    (fun commits commit =>
      if inWindow latestCommitTime nDays commit.time then setEmplace h commits (entryOf commit)
      else commits)
    []

/-- The function `RepoStats::findCommits`. -/
def findCommits (h : StdHash) (repo : Repository) (nDays : Nat) : Except String CommitSet :=
  match scanBranches repo.branches (0, []) with
  | .error e => .error e
  | .ok (latestCommitTime, commitList) =>
    .ok (collectWindow h latestCommitTime nDays commitList)

/-! ## `RepoStats::commitDate` -/

/-- The fields of `struct tm` that `strftime` reads for `%Y/%m/%d`. -/
structure Tm where
  /-- Years since 1900. -/
  tm_year : Int
  /-- Months since January, 0 to 11. -/
  tm_mon : Int
  /-- Day of the month, 1 to 31. -/
  tm_mday : Int
  deriving DecidableEq, Repr

/-- The UTC calendar date (proleptic Gregorian calendar) of the second `t` after
1970-01-01T00:00:00Z, before its year is stored in an `int`. The day number
`t / 86400` (rounded down) is counted from 0000-03-01 and split into 400-year
eras, centuries, 4-year cycles, years starting in March, months and days. -/
def brokenDownTime (t : Int) : Tm :=
  let days := t / 86400
  let z := days + 719468
  let era := z / 146097
  let doe := z % 146097
  let cent := min (doe / 36524) 3
  let doc := doe - cent * 36524
  let quad := doc / 1461
  let doq := doc % 1461
  let yoq := min (doq / 365) 3
  let doy := doq - yoq * 365
  let mp := (5 * doy + 2) / 153
  let mday := doy - (153 * mp + 2) / 5 + 1
  let mon := if mp < 10 then mp + 3 else mp - 9
  let year := era * 400 + cent * 100 + quad * 4 + yoq + (if mon ≤ 2 then 1 else 0)
  ⟨year - 1900, mon - 1, mday⟩

/-- The C library's `gmtime`: the broken-down time of the second `t`, or `none`
for the null pointer that it returns when the year since 1900 does not fit the
`int` field `tm_year`. -/
def gmtime (t : Int) : Option Tm :=
  if -2147483648 ≤ (brokenDownTime t).tm_year ∧ (brokenDownTime t).tm_year ≤ 2147483647 then
    some (brokenDownTime t)
  else none

/-- The inverse of `brokenDownTime` on dates (`timegm` divided by 86400): the
number of days from 1970-01-01 to the date `tm`. -/
def timegmDays (tm : Tm) : Int :=
  let year := tm.tm_year + 1900
  let mon := tm.tm_mon + 1
  let y := if mon ≤ 2 then year - 1 else year
  let era := y / 400
  let yoe := y % 400
  let mp := if mon > 2 then mon - 3 else mon + 9
  let doy := (153 * mp + 2) / 5 + tm.tm_mday - 1
  let doe := yoe * 365 + yoe / 4 - yoe / 100 + doy
  era * 146097 + doe - 719468

/-- A number printed by `strftime` with two digits (`%m`, `%d`). -/
def twoDigits (n : Int) : String :=
  String.mk [Nat.digitChar (n.toNat / 10), Nat.digitChar (n.toNat % 10)]

/-- The call `strftime(out, sizeof(out), "%Y/%m/%d", tm)` as glibc implements
it: the year `tm_year + 1900`, computed as an `int` (it wraps for the years
beyond 2147483647), in decimal with as many digits as it has, the month and the
day of the month with two digits each. -/
def strftimeYmd (tm : Tm) : String :=
  toString (int32Wrap (tm.tm_year + 1900)) ++ "/" ++ twoDigits (tm.tm_mon + 1) ++ "/" ++
    twoDigits tm.tm_mday

/-- The function `RepoStats::commitDate`: the text written by `strftime`, or
`none` when `gmtime` returns the null pointer, which `strftime` then reads: the
program is killed. -/
def commitDate (commit : GitCommit) : Option String :=
  match gmtime commit.time with
  | none => none
  | some tm => some (strftimeYmd tm)

/-! ## `RepoStats::updateStats` and the loop of `RepoStats::run` -/

/-- The function `RepoStats::updateStats`: the effect on `*ls` of the three
updates of lines 214-216. -/
def updateStats (commit : GitCommit) (ls : LineStats) : LineStats :=
  ⟨ls.author, uiAdd ls.commits 1, uiAdd ls.linesAdded commit.insertions,
    uiAdd ls.linesRemoved commit.deletions⟩

/-- Lines 98-102 of `RepoStats::run`: the updates of `dateLineStatsMap` for a
commit with one parent whose date text is `date`. -/
def bucketStep (dateLineStatsMap : ReportModel) (date : String) (entry : CommitEntry) :
    ReportModel :=
  mapModify (mapEmplace dateLineStatsMap date (DateLineStats.new date)) date
    (fun dateLineStats =>
      ⟨dateLineStats.date,
        mapModify (mapEmplace dateLineStats.lineStats entry.author (LineStats.new entry.author))
          entry.author (updateStats entry.commit)⟩)

/-- One iteration of the loop of `RepoStats::run` (lines 82-104) on
`dateLineStatsMap`; `none` when the program is killed in `commitDate`. -/
def runStep (dateLineStatsMap : ReportModel) (entry : CommitEntry) : Option ReportModel :=
  if entry.commit.parentCount ≠ 1 then some dateLineStatsMap
  else
    match commitDate entry.commit with
    | none => none
    | some date => some (bucketStep dateLineStatsMap date entry)

/-- The loop of `RepoStats::run` over the entries that remain, from the state
`dateLineStatsMap`. -/
def runLoop : ReportModel → List CommitEntry → Option ReportModel
  | dateLineStatsMap, [] => some dateLineStatsMap
  | dateLineStatsMap, entry :: rest =>
    match runStep dateLineStatsMap entry with
    | none => none
    | some next => runLoop next rest

/-- The loop of `RepoStats::run` over the commit set, from an empty
`dateLineStatsMap`: the map after the loop, or `none` when the program is
killed on the way. -/
def aggregate (commitSet : CommitSet) : Option ReportModel :=
  runLoop [] commitSet

/-- The `LineStats` stored under a date and an author, if any. -/
def lookupStats (m : ReportModel) (date author : String) : Option LineStats :=
  match mapFind m date with
  | none => none
  | some dateLineStats => mapFind dateLineStats.lineStats author

/-! ## `RepoStats::renderTable`, `RepoStats::run` and `main` -/

/-- The function `RepoStats::renderTable`: the dates written, in the order in
which they are written, each with the `LineStats` written under it. -/
def renderTable (dateLineStatsMap : ReportModel) : List (String × List LineStats) :=
  dateLineStatsMap.map (fun dl => (dl.2.date, dl.2.lineStats.map (fun p => p.2)))

/-- The characters that `renderTable` writes for one `LineStats`. -/
def statsText (stats : LineStats) : String :=
  "\t" ++ stats.author ++ ":\n" ++
    "\t\tCommits: " ++ toString stats.commits ++ "\n" ++
    "\t\tAdded lines : " ++ toString stats.linesAdded ++ "\n" ++
    "\t\tRemoved lines : " ++ toString stats.linesRemoved ++ "\n"

/-- The characters that `renderTable` writes. -/
def tableText (table : List (String × List LineStats)) : String :=
  String.join (table.map (fun b => b.1 ++ ":\n" ++ String.join (b.2.map statsText)))

/-- The function `RepoStats::run`: the exception thrown or the table written
by `renderTable`, or `none` when the program is killed in the loop. -/
def run (git : Git) (h : StdHash) (path : String) (days : Nat) :
    Option (Except String (List (String × List LineStats))) :=
  match git path with
  | none => some (.error "Could not find repository")
  | some repo =>
    match findCommits h repo days with
    | .error e => some (.error e)
    | .ok commitSet =>
      match aggregate commitSet with
      | none => none
      | some dateLineStatsMap => some (.ok (renderTable dateLineStatsMap))

/-- What the program has written to standard output when it ends. -/
inductive Stdout where
  /-- The usage text of the argument parser. -/
  | usage
  /-- The text `err.what()` of an exception. -/
  | what (message : String)
  /-- The table written by `renderTable`. -/
  | table (blocks : List (String × List LineStats))
  deriving DecidableEq, Repr

/-- The function `main`: its exit code and what it wrote, or `none` when the
program is killed and `main` does not return. The argument is the outcome of
`parser.ParseCLI`: `none` when it throws, the path and the number of days
otherwise. -/
def main (git : Git) (h : StdHash) (cli : Option (String × Int)) : Option (Nat × Stdout) :=
  match cli with
  | none => some (1, .usage)
  | some (path, days) =>
    match run git h path (intToUi days) with
    | none => none
    | some (.error e) => some (1, .what e)
    | some (.ok table) => some (0, .table table)

/-! ## Predicates used in the statements -/

/-- The commits that the walks of all branches produce, in the order in which
`findCommits` appends them to `commitList`. -/
def allCommits (repo : Repository) : List GitCommit :=
  repo.branches.flatMap (fun b => b.walk.filterMap id)

/-- The value of `latestCommitTime` after the commits `l` have been seen. -/
def latestAfter (start : Int) (l : List GitCommit) : Int :=
  l.foldl (fun latest c => if c.time > latest then c.time else latest) start

/-- Walking the branch makes `findCommits` throw. -/
def branchFails (b : Branch) : Bool :=
  !b.revwalkNew || !b.revwalkPush || b.walk.any Option.isNone

/-- The repository cannot be opened, or walking one of its branches makes
`findCommits` throw. -/
def backendFails (git : Git) (path : String) : Bool :=
  match git path with
  | none => true
  | some repo => repo.branches.any branchFails

/-- The keys of a map are in strictly ascending order. -/
def KeysSorted {V : Type} (m : StdMap V) : Prop :=
  m.Pairwise (fun p q => stringLess p.1 q.1 = true)

/-- The invariant of `dateLineStatsMap`: the dates are in ascending order, every
`DateLineStats` carries the date it is stored under, its authors are in
ascending order, and every `LineStats` carries the author it is stored under. -/
def WellFormed (m : ReportModel) : Prop :=
  KeysSorted m ∧
    ∀ p ∈ m, p.2.date = p.1 ∧ KeysSorted p.2.lineStats ∧
      ∀ q ∈ p.2.lineStats, q.2.author = q.1

/-- The commits of a commit set that have exactly one parent, the given date
and the given author. -/
def selected (commitSet : CommitSet) (date author : String) : List CommitEntry :=
  commitSet.filter
    (fun e =>
      e.commit.parentCount == 1 && commitDate e.commit == some date && e.author == author)

/-- The `LineStats` of an author after the commits `l` of that author have been
added to it by `updateStats`, starting from `start` (`none`: no entry yet). -/
def accumulate (author : String) (start : Option LineStats) (l : List CommitEntry) :
    Option LineStats :=
  l.foldl (fun o e => some (updateStats e.commit (o.getD (LineStats.new author)))) start

/-- Some commit of the set has exactly one parent and the given date. -/
def hasDate (commitSet : CommitSet) (date : String) : Bool :=
  commitSet.any (fun e => e.commit.parentCount == 1 && commitDate e.commit == some date)

/-- Some commit of the set has exactly one parent and a time stamp that `gmtime`
does not convert: the program is killed in the loop of `run`. -/
def killedBy (commitSet : CommitSet) : Bool :=
  commitSet.any (fun e => e.commit.parentCount == 1 && (commitDate e.commit).isNone)

/-- The time stamps that `gmtime` converts, from the first second of the year
-2147481748 to the last second of the year 2147485547. -/
def GmtimeRange (t : Int) : Prop := -67768040609740800 ≤ t ∧ t ≤ 67768036191676799

/-- The number that a sequence of decimal digits stands for. -/
def decodeDigits (cs : List Char) : Nat :=
  Nat.ofDigits 10 (cs.reverse.map (fun c => c.toNat - 48))

/-- The number of days from 0000-03-01 to the first of March of year `y`. -/
def marchDays (y : Int) : Int := 365 * y + y / 4 - y / 100 + y / 400

/-- The date `a` is earlier in the calendar than the date `b`. -/
def Tm.before (a b : Tm) : Prop :=
  a.tm_year < b.tm_year ∨
    (a.tm_year = b.tm_year ∧
      (a.tm_mon < b.tm_mon ∨ (a.tm_mon = b.tm_mon ∧ a.tm_mday < b.tm_mday)))

/-- The time stamps of the years 1000 to 9999, from 1000-01-01T00:00:00Z to
9999-12-31T23:59:59Z: the dates that `strftime` prints with a four-digit
year. -/
def FourDigitYear (t : Int) : Prop := -30610224000 ≤ t ∧ t ≤ 253402300799

/-! ## Example repositories -/

/-- An instance of `std::hash` for the examples: FNV-1a over the characters of a
string, the value itself (as a `size_t`) for a time stamp. -/
def exampleHash : StdHash where
  hashString := fun s =>
    s.data.foldl (fun acc c => ((acc ^^^ c.toNat) * 1099511628211) % 18446744073709551616)
      14695981039346656037
  hashTime := fun t => (t % 18446744073709551616).toNat

/-- The root commit of the scenario of the specification, on 2023-11-14. -/
def specC1 : GitCommit :=
  ⟨"c1c1c1c1c1c1c1c1c1c1c1c1c1c1c1c1c1c1c1c1", "R", 1699920000, 0, 0, 0⟩

/-- The commit by `A` on 2023-11-14, ten lines added and two removed. -/
def specC2 : GitCommit :=
  ⟨"c2c2c2c2c2c2c2c2c2c2c2c2c2c2c2c2c2c2c2c2", "A", 1699923600, 1, 10, 2⟩

/-- The commit by `B` on 2023-11-15, five lines added and one removed. -/
def specC3 : GitCommit :=
  ⟨"c3c3c3c3c3c3c3c3c3c3c3c3c3c3c3c3c3c3c3c3", "B", 1700010000, 1, 5, 1⟩

/-- The repository of the scenario: one branch, walked from its head. -/
def specRepo : Repository :=
  ⟨[⟨true, true, [some specC3, some specC2, some specC1]⟩]⟩

/-- A later commit by `A`, forty days after `specC2`, on one branch. -/
def forkC3a : GitCommit :=
  ⟨"3a3a3a3a3a3a3a3a3a3a3a3a3a3a3a3a3a3a3a3a", "A", 1703379600, 1, 7, 3⟩

/-- A later commit by `B`, forty days after `specC2`, on another branch. -/
def forkC3b : GitCommit :=
  ⟨"3b3b3b3b3b3b3b3b3b3b3b3b3b3b3b3b3b3b3b3b", "B", 1703383200, 1, 4, 0⟩

/-- Two branches that share `specC1` and `specC2` and then diverge. -/
def forkRepo : Repository :=
  ⟨[⟨true, true, [some forkC3a, some specC2, some specC1]⟩,
    ⟨true, true, [some forkC3b, some specC2, some specC1]⟩]⟩

/-- A commit that adds `2 ^ 32` lines. -/
def hugeCommit : GitCommit :=
  ⟨"4444444444444444444444444444444444444444", "A", 1699923600, 1, 4294967296, 0⟩

/-- A commit made in the last second of the year 9999. -/
def lastOf9999 : GitCommit :=
  ⟨"9999999999999999999999999999999999999999", "A", 253402300799, 1, 1, 0⟩

/-- A commit made in the first second of the year 10000. -/
def firstOf10000 : GitCommit :=
  ⟨"1000010000100001000010000100001000010000", "A", 253402300800, 1, 1, 0⟩

/-- A commit made 100000 seconds after the epoch. -/
def recentCommit : GitCommit :=
  ⟨"aaaaaaaaaaaaaaaaaaaaaaaaaaaaaaaaaaaaaaaa", "A", 100000, 1, 1, 0⟩

/-- The parent of `recentCommit`, made at the epoch. -/
def epochCommit : GitCommit :=
  ⟨"bbbbbbbbbbbbbbbbbbbbbbbbbbbbbbbbbbbbbbbb", "A", 0, 1, 1, 0⟩

/-- A branch with `recentCommit` and `epochCommit`. -/
def windowRepo : Repository :=
  ⟨[⟨true, true, [some recentCommit, some epochCommit]⟩]⟩

/-- A commit made one second before the epoch, 1969-12-31T23:59:59Z. -/
def before1970 : GitCommit :=
  ⟨"6969696969696969696969696969696969696969", "A", -1, 1, 1, 0⟩

/-- A repository whose only commits are `before1970` and its root. -/
def oldRepo : Repository :=
  ⟨[⟨true, true, [some before1970,
    some ⟨"6868686868686868686868686868686868686868", "A", -86401, 0, 0, 0⟩]⟩]⟩

/-- A cherry-pick of `specC2`: another id, the same author and time stamp. -/
def pickedC2 : GitCommit :=
  ⟨"d2d2d2d2d2d2d2d2d2d2d2d2d2d2d2d2d2d2d2d2", "A", 1699923600, 1, 10, 2⟩

/-- A commit made in the first second of the year 2147485548, the first that
`gmtime` does not convert. -/
def farFuture : GitCommit :=
  ⟨"ffffffffffffffffffffffffffffffffffffffff", "A", 67768036191676800, 1, 1, 0⟩

/-- A commit made one second after `farFuture`. -/
def farFutureNext : GitCommit :=
  ⟨"fefefefefefefefefefefefefefefefefefefefe", "A", 67768036191676801, 1, 1, 0⟩

/-- A branch with `farFuture` on top of the root commit `specC1`. -/
def farRepo : Repository :=
  ⟨[⟨true, true, [some farFuture, some specC1]⟩]⟩

/-- A commit made in the last second that `gmtime` converts, in the year
2147485547. -/
def lastConverted : GitCommit :=
  ⟨"7f7f7f7f7f7f7f7f7f7f7f7f7f7f7f7f7f7f7f7f", "A", 67768036191676799, 1, 1, 0⟩

/-! # Theorems -/

/-! ## The order of strings -/

theorem char_eq_of_toNat_eq {a b : Char} (h : a.toNat = b.toNat) : a = b := by
  apply Char.ext
  apply UInt32.ext
  exact h

theorem lexLt_irrefl (a : List Char) : lexLt a a = false := by
  induction a with
  | nil => rfl
  | cons x xs ih => simp [lexLt, ih]

theorem lexLt_trans : ∀ {a b c : List Char},
    lexLt a b = true → lexLt b c = true → lexLt a c = true
  | [], [], _, h, _ => by simp [lexLt] at h
  | [], _ :: _, [], _, h => by simp [lexLt] at h
  | [], _ :: _, _ :: _, _, _ => by simp [lexLt]
  | _ :: _, [], _, h, _ => by simp [lexLt] at h
  | _ :: _, _ :: _, [], _, h => by simp [lexLt] at h
  | x :: xs, y :: ys, z :: zs, h₁, h₂ => by
    simp only [lexLt] at h₁ h₂ ⊢
    split_ifs at h₁ h₂ ⊢ <;> first
      | rfl
      | omega
      | exact lexLt_trans h₁ h₂

theorem lexLt_total : ∀ {a b : List Char},
    lexLt a b = false → lexLt b a = false → a = b
  | [], [], _, _ => rfl
  | [], _ :: _, h, _ => by simp [lexLt] at h
  | _ :: _, [], _, h => by simp [lexLt] at h
  | x :: xs, y :: ys, h₁, h₂ => by
    simp only [lexLt] at h₁ h₂
    split_ifs at h₁ h₂
    have hxy : x = y := char_eq_of_toNat_eq (by omega)
    rw [hxy, lexLt_total h₁ h₂]

theorem stringLess_irrefl (a : String) : stringLess a a = false := lexLt_irrefl _

theorem stringLess_trans {a b c : String} (h₁ : stringLess a b = true)
    (h₂ : stringLess b c = true) : stringLess a c = true := lexLt_trans h₁ h₂

theorem stringLess_total {a b : String} (h₁ : stringLess a b = false)
    (h₂ : stringLess b a = false) : a = b := by
  have := lexLt_total h₁ h₂
  cases a; cases b; simp_all

theorem stringLess_asymm {a b : String} (h : stringLess a b = true) :
    stringLess b a = false := by
  cases hba : stringLess b a
  · rfl
  · have := stringLess_trans h hba
    rw [stringLess_irrefl] at this
    exact absurd this (by simp)

theorem stringLess_ne {a b : String} (h : stringLess a b = true) : a ≠ b := by
  rintro rfl
  rw [stringLess_irrefl] at h
  exact absurd h (by simp)

/-- Two keys are equivalent for a `std::map` exactly when they are equal. -/
theorem equiv_iff_eq (a b : String) :
    (stringLess a b || stringLess b a) = false ↔ a = b := by
  constructor
  · intro h
    rw [Bool.or_eq_false_iff] at h
    exact stringLess_total h.1 h.2
  · rintro rfl
    simp [stringLess_irrefl]

theorem equiv_of_ne {a b : String} (h : a ≠ b) :
    (stringLess a b || stringLess b a) = true := by
  cases hab : (stringLess a b || stringLess b a)
  · exact absurd ((equiv_iff_eq a b).1 hab) h
  · rfl

theorem char_lt_iff (a b : Char) : a < b ↔ a.toNat < b.toNat := Iff.rfl

/-- The function `lexLt` is the lexicographic order of lists of characters. -/
theorem lexLt_iff_lex : ∀ (a b : List Char),
    lexLt a b = true ↔ List.Lex (fun x y : Char => x < y) a b
  | [], [] => by
    simp only [lexLt, Bool.false_eq_true, false_iff]
    intro h
    cases h
  | [], _ :: _ => by
    simp only [lexLt, true_iff]
    exact List.Lex.nil
  | _ :: _, [] => by
    simp only [lexLt, Bool.false_eq_true, false_iff]
    intro h
    cases h
  | x :: xs, y :: ys => by
    have ih := lexLt_iff_lex xs ys
    simp only [lexLt]
    constructor
    · intro h
      split_ifs at h with h₁ h₂
      · exact List.Lex.rel ((char_lt_iff x y).2 h₁)
      · have hxy : x = y := char_eq_of_toNat_eq (by omega)
        subst hxy
        exact List.Lex.cons (ih.1 h)
    · intro h
      cases h with
      | rel hlt => rw [if_pos ((char_lt_iff x y).1 hlt)]
      | cons hlt =>
        rw [if_neg (by omega), if_neg (by omega)]
        exact ih.2 hlt

/-- The function `stringLess` is the order `<` of strings. -/
theorem stringLess_iff_lt (a b : String) : stringLess a b = true ↔ a < b := by
  rw [String.lt_iff_toList_lt]
  exact lexLt_iff_lex a.data b.data

/-! ## `std::map` -/

theorem mapFind_cons_self {V : Type} (k : String) (v : V) (m : StdMap V) :
    mapFind ((k, v) :: m) k = some v := by
  simp [mapFind, stringLess_irrefl]

theorem mapFind_cons_ne {V : Type} {k k' : String} (v : V) (m : StdMap V) (h : k ≠ k') :
    mapFind ((k', v) :: m) k = mapFind m k := by
  simp [mapFind, equiv_of_ne h]

theorem mapFind_eq_none_of_lt {V : Type} {k : String} :
    ∀ {m : StdMap V}, (∀ p ∈ m, stringLess k p.1 = true) → mapFind m k = none
  | [], _ => rfl
  | (k', v') :: rest, h => by
    have hk : stringLess k k' = true := h (k', v') (List.mem_cons_self _ _)
    rw [mapFind_cons_ne v' rest (stringLess_ne hk)]
    exact mapFind_eq_none_of_lt (fun p hp => h p (List.mem_cons_of_mem _ hp))

theorem mapEmplace_mem {V : Type} {k : String} {v : V} {p : String × V} :
    ∀ {m : StdMap V}, p ∈ mapEmplace m k v → p ∈ m ∨ p = (k, v)
  | [], h => by simp [mapEmplace] at h; exact Or.inr h
  | (k', v') :: rest, h => by
    simp only [mapEmplace] at h
    split_ifs at h with h₁ h₂
    · rcases List.mem_cons.1 h with h | h
      · exact Or.inr h
      · exact Or.inl h
    · rcases List.mem_cons.1 h with h | h
      · exact Or.inl (h ▸ List.mem_cons_self _ _)
      · rcases mapEmplace_mem h with h | h
        · exact Or.inl (List.mem_cons_of_mem _ h)
        · exact Or.inr h
    · exact Or.inl h

theorem mapEmplace_sorted {V : Type} (k : String) (v : V) :
    ∀ {m : StdMap V}, KeysSorted m → KeysSorted (mapEmplace m k v)
  | [], _ => by simp [mapEmplace, KeysSorted]
  | (k', v') :: rest, h => by
    have h' := List.pairwise_cons.1 h
    simp only [mapEmplace]
    split_ifs with h₁ h₂
    · refine List.pairwise_cons.2 ⟨?_, h⟩
      intro p hp
      rcases List.mem_cons.1 hp with rfl | hp
      · exact h₁
      · exact stringLess_trans h₁ (h'.1 p hp)
    · refine List.pairwise_cons.2 ⟨?_, mapEmplace_sorted k v h'.2⟩
      intro p hp
      rcases mapEmplace_mem hp with hp | rfl
      · exact h'.1 p hp
      · exact h₂
    · exact h

theorem mapFind_emplace_ne {V : Type} {k k' : String} (v : V) (h : k' ≠ k) :
    ∀ (m : StdMap V), mapFind (mapEmplace m k v) k' = mapFind m k'
  | [] => by simp [mapEmplace, mapFind, equiv_of_ne h]
  | (k₀, v₀) :: rest => by
    simp only [mapEmplace]
    split_ifs with h₁ h₂
    · rw [mapFind_cons_ne _ _ h]
    · by_cases hk : k' = k₀
      · subst hk; rw [mapFind_cons_self, mapFind_cons_self]
      · rw [mapFind_cons_ne _ _ hk, mapFind_cons_ne _ _ hk, mapFind_emplace_ne v h rest]
    · rfl

theorem mapFind_emplace_self {V : Type} (k : String) (v : V) :
    ∀ {m : StdMap V}, KeysSorted m →
      mapFind (mapEmplace m k v) k = some ((mapFind m k).getD v)
  | [], _ => by simp [mapEmplace, mapFind, stringLess_irrefl]
  | (k₀, v₀) :: rest, h => by
    have h' := List.pairwise_cons.1 h
    simp only [mapEmplace]
    split_ifs with h₁ h₂
    · rw [mapFind_cons_self, mapFind_cons_ne _ _ (stringLess_ne h₁)]
      rw [mapFind_eq_none_of_lt (fun p hp => stringLess_trans h₁ (h'.1 p hp))]
      rfl
    · have hne : k ≠ k₀ := fun e => stringLess_ne h₂ e.symm
      rw [mapFind_cons_ne _ _ hne, mapFind_cons_ne _ _ hne, mapFind_emplace_self k v h'.2]
    · have hk : k = k₀ := stringLess_total (by simpa using h₁) (by simpa using h₂)
      subst hk
      rw [mapFind_cons_self]; rfl

theorem mapModify_keys {V : Type} (k : String) (f : V → V) :
    ∀ (m : StdMap V), (mapModify m k f).map Prod.fst = m.map Prod.fst
  | [] => rfl
  | (k₀, v₀) :: rest => by
    simp only [mapModify]
    split_ifs <;> simp [mapModify_keys k f rest]

theorem keysSorted_iff {V : Type} (m : StdMap V) :
    KeysSorted m ↔ (m.map Prod.fst).Pairwise (fun a b => stringLess a b = true) := by
  simp [KeysSorted, List.pairwise_map]

theorem mapModify_sorted {V : Type} (k : String) (f : V → V) {m : StdMap V}
    (h : KeysSorted m) : KeysSorted (mapModify m k f) := by
  rw [keysSorted_iff] at h ⊢
  rwa [mapModify_keys]

theorem mapFind_modify_self {V : Type} (k : String) (f : V → V) :
    ∀ (m : StdMap V), mapFind (mapModify m k f) k = (mapFind m k).map f
  | [] => rfl
  | (k₀, v₀) :: rest => by
    simp only [mapModify]
    split_ifs with h₁
    · simp only [mapFind, h₁, if_true]
      exact mapFind_modify_self k f rest
    · simp [mapFind, h₁]

theorem mapFind_modify_ne {V : Type} {k k' : String} (f : V → V) (h : k' ≠ k) :
    ∀ (m : StdMap V), mapFind (mapModify m k f) k' = mapFind m k'
  | [] => rfl
  | (k₀, v₀) :: rest => by
    simp only [mapModify]
    split_ifs with h₁
    · by_cases hk : k' = k₀
      · subst hk; rw [mapFind_cons_self, mapFind_cons_self]
      · rw [mapFind_cons_ne _ _ hk, mapFind_cons_ne _ _ hk, mapFind_modify_ne f h rest]
    · have hk : k = k₀ := (equiv_iff_eq k k₀).1 (by simpa using h₁)
      subst hk
      rw [mapFind_cons_ne _ _ h, mapFind_cons_ne _ _ h]

theorem mapFind_of_mem {V : Type} {k : String} {v : V} :
    ∀ {m : StdMap V}, KeysSorted m → (k, v) ∈ m → mapFind m k = some v
  | [], _, h => by simp at h
  | (k₀, v₀) :: rest, hs, h => by
    have h' := List.pairwise_cons.1 hs
    rcases List.mem_cons.1 h with h | h
    · cases h; exact mapFind_cons_self _ _ _
    · have hne : k ≠ k₀ := fun e => stringLess_ne (h'.1 _ h) e.symm
      rw [mapFind_cons_ne _ _ hne]
      exact mapFind_of_mem h'.2 h

theorem mem_of_mapFind {V : Type} {k : String} {v : V} :
    ∀ {m : StdMap V}, mapFind m k = some v → (k, v) ∈ m
  | [], h => by simp [mapFind] at h
  | (k₀, v₀) :: rest, h => by
    by_cases hk : k = k₀
    · subst hk
      rw [mapFind_cons_self] at h
      cases h
      exact List.mem_cons_self _ _
    · rw [mapFind_cons_ne _ _ hk] at h
      exact List.mem_cons_of_mem _ (mem_of_mapFind h)

/-- Two maps with sorted keys that store the same value under every key are
equal. -/
theorem map_ext {V : Type} :
    ∀ {m₁ m₂ : StdMap V}, KeysSorted m₁ → KeysSorted m₂ →
      (∀ k, mapFind m₁ k = mapFind m₂ k) → m₁ = m₂
  | [], [], _, _, _ => rfl
  | [], (k, v) :: _, _, _, h => by
    have := h k
    rw [mapFind_cons_self] at this
    simp [mapFind] at this
  | (k, v) :: _, [], _, _, h => by
    have := h k
    rw [mapFind_cons_self] at this
    simp [mapFind] at this
  | (k₁, v₁) :: r₁, (k₂, v₂) :: r₂, h₁, h₂, h => by
    have h₁' := List.pairwise_cons.1 h₁
    have h₂' := List.pairwise_cons.1 h₂
    have hk : k₁ = k₂ := by
      by_contra hne
      have e₁ := h k₁
      have e₂ := h k₂
      rw [mapFind_cons_self, mapFind_cons_ne _ _ hne] at e₁
      rw [mapFind_cons_self, mapFind_cons_ne _ _ (Ne.symm hne)] at e₂
      have m₁ := h₂'.1 _ (mem_of_mapFind e₁.symm)
      have m₂ := h₁'.1 _ (mem_of_mapFind e₂)
      have := stringLess_asymm m₁
      simp only at m₁ m₂ this
      rw [m₂] at this
      exact absurd this (by simp)
    subst hk
    have hv : v₁ = v₂ := by
      have := h k₁
      rw [mapFind_cons_self, mapFind_cons_self] at this
      exact Option.some.inj this
    subst hv
    have hrest : r₁ = r₂ := by
      apply map_ext h₁'.2 h₂'.2
      intro k
      by_cases hk : k = k₁
      · subst hk
        rw [mapFind_eq_none_of_lt (fun p hp => h₁'.1 p hp),
          mapFind_eq_none_of_lt (fun p hp => h₂'.1 p hp)]
      · have := h k
        rwa [mapFind_cons_ne _ _ hk, mapFind_cons_ne _ _ hk] at this
    rw [hrest]

theorem mapModify_mem {V : Type} {k : String} {f : V → V} {p : String × V} :
    ∀ {m : StdMap V}, p ∈ mapModify m k f → p ∈ m ∨ ∃ v, (k, v) ∈ m ∧ p = (k, f v)
  | [], h => by simp [mapModify] at h
  | (k₀, v₀) :: rest, h => by
    simp only [mapModify] at h
    split_ifs at h with h₁
    · rcases List.mem_cons.1 h with h | h
      · exact Or.inl (h ▸ List.mem_cons_self _ _)
      · rcases mapModify_mem h with h | ⟨v, hv, hp⟩
        · exact Or.inl (List.mem_cons_of_mem _ h)
        · exact Or.inr ⟨v, List.mem_cons_of_mem _ hv, hp⟩
    · have hk : k = k₀ := (equiv_iff_eq k k₀).1 (by simpa using h₁)
      subst hk
      rcases List.mem_cons.1 h with h | h
      · exact Or.inr ⟨v₀, List.mem_cons_self _ _, h⟩
      · exact Or.inl (List.mem_cons_of_mem _ h)

/-! ## The aggregation loop -/

theorem wellFormed_nil : WellFormed [] := by
  simp [WellFormed, KeysSorted]

theorem updateStats_author (c : GitCommit) (ls : LineStats) :
    (updateStats c ls).author = ls.author := rfl

/-- The inner update of `bucketStep` keeps the authors sorted and the `author`
fields equal to the keys. -/
theorem lineStats_step_ok (author : String) (c : GitCommit) {ls : StdMap LineStats}
    (hs : KeysSorted ls) (ha : ∀ q ∈ ls, q.2.author = q.1) :
    KeysSorted (mapModify (mapEmplace ls author (LineStats.new author)) author (updateStats c)) ∧
      ∀ q ∈ mapModify (mapEmplace ls author (LineStats.new author)) author (updateStats c),
        q.2.author = q.1 := by
  refine ⟨mapModify_sorted _ _ (mapEmplace_sorted _ _ hs), ?_⟩
  have hem : ∀ q ∈ mapEmplace ls author (LineStats.new author), q.2.author = q.1 := by
    intro q hq
    rcases mapEmplace_mem hq with hq | rfl
    · exact ha q hq
    · rfl
  intro q hq
  rcases mapModify_mem hq with hq | ⟨v, hv, rfl⟩
  · exact hem q hq
  · exact hem (author, v) hv

theorem bucketStep_wellFormed {m : ReportModel} (hm : WellFormed m) (d : String)
    (e : CommitEntry) : WellFormed (bucketStep m d e) := by
  unfold bucketStep
  refine ⟨mapModify_sorted _ _ (mapEmplace_sorted _ _ hm.1), ?_⟩
  have hem : ∀ p ∈ mapEmplace m d (DateLineStats.new d),
      p.2.date = p.1 ∧ KeysSorted p.2.lineStats ∧ ∀ q ∈ p.2.lineStats, q.2.author = q.1 := by
    intro p hp
    rcases mapEmplace_mem hp with hp | rfl
    · exact hm.2 p hp
    · simp [DateLineStats.new, KeysSorted]
  intro p hp
  rcases mapModify_mem hp with hp | ⟨v, hv, rfl⟩
  · exact hem p hp
  · obtain ⟨h₁, h₂, h₃⟩ := hem _ hv
    exact ⟨h₁, lineStats_step_ok e.author e.commit h₂ h₃⟩

theorem runStep_skip (m : ReportModel) (e : CommitEntry) (h : e.commit.parentCount ≠ 1) :
    runStep m e = some m := by
  simp [runStep, h]

theorem runStep_counted (m : ReportModel) {e : CommitEntry} (h : e.commit.parentCount = 1) :
    runStep m e = (commitDate e.commit).map (fun d => bucketStep m d e) := by
  unfold runStep
  rw [if_neg (not_not.2 h)]
  cases commitDate e.commit <;> rfl

/-- The two ways in which an iteration of the loop completes. -/
theorem runStep_cases {m m' : ReportModel} {e : CommitEntry} (h : runStep m e = some m') :
    (e.commit.parentCount ≠ 1 ∧ m' = m) ∨
      (e.commit.parentCount = 1 ∧ ∃ d, commitDate e.commit = some d ∧ m' = bucketStep m d e) := by
  by_cases hp : e.commit.parentCount = 1
  · rw [runStep_counted m hp] at h
    cases hd : commitDate e.commit with
    | none => rw [hd] at h; cases h
    | some d =>
      rw [hd] at h
      exact Or.inr ⟨hp, d, rfl, (Option.some.inj h).symm⟩
  · rw [runStep_skip m e hp] at h
    exact Or.inl ⟨hp, (Option.some.inj h).symm⟩

theorem runStep_wellFormed {m m' : ReportModel} (hm : WellFormed m) {e : CommitEntry}
    (h : runStep m e = some m') : WellFormed m' := by
  rcases runStep_cases h with ⟨_, rfl⟩ | ⟨_, d, _, rfl⟩
  · exact hm
  · exact bucketStep_wellFormed hm d e

theorem runLoop_cons_some {m m' : ReportModel} {e : CommitEntry} {rest : List CommitEntry}
    (h : runLoop m (e :: rest) = some m') :
    ∃ m₁, runStep m e = some m₁ ∧ runLoop m₁ rest = some m' := by
  simp only [runLoop] at h
  cases hs : runStep m e with
  | none => rw [hs] at h; cases h
  | some m₁ => rw [hs] at h; exact ⟨m₁, rfl, h⟩

theorem runLoop_wellFormed (cs : List CommitEntry) :
    ∀ {m m' : ReportModel}, WellFormed m → runLoop m cs = some m' → WellFormed m' := by
  induction cs with
  | nil =>
    intro m m' hm h
    simp only [runLoop] at h
    cases h
    exact hm
  | cons e rest ih =>
    intro m m' hm h
    obtain ⟨m₁, h₁, h₂⟩ := runLoop_cons_some h
    exact ih (runStep_wellFormed hm h₁) h₂

theorem aggregate_wellFormed {cs : CommitSet} {m : ReportModel} (h : aggregate cs = some m) :
    WellFormed m :=
  runLoop_wellFormed cs wellFormed_nil h

theorem runLoop_append (l₁ l₂ : List CommitEntry) :
    ∀ m : ReportModel,
      runLoop m (l₁ ++ l₂) = (runLoop m l₁).bind (fun m' => runLoop m' l₂) := by
  induction l₁ with
  | nil => intro m; rfl
  | cons e rest ih =>
    intro m
    simp only [List.cons_append, runLoop]
    cases runStep m e with
    | none => rfl
    | some m₁ => exact ih m₁

/-- The loop is killed exactly when a counted commit has no date text. -/
theorem runLoop_isSome (cs : List CommitEntry) :
    ∀ m : ReportModel, (runLoop m cs).isSome = !killedBy cs := by
  induction cs with
  | nil => intro m; rfl
  | cons e rest ih =>
    intro m
    simp only [runLoop, killedBy, List.any_cons]
    by_cases hp : e.commit.parentCount = 1
    · rw [runStep_counted m hp]
      cases hd : commitDate e.commit with
      | none => simp [hp]
      | some d =>
        have := ih (bucketStep m d e)
        simp only [killedBy] at this
        simp [hp, this]
    · have hp' : (e.commit.parentCount == 1) = false := by simpa using hp
      rw [runStep_skip m e hp]
      have := ih m
      simp only [killedBy] at this
      simp [hp', this]

theorem aggregate_eq_none_iff (cs : CommitSet) : aggregate cs = none ↔ killedBy cs = true := by
  have := runLoop_isSome cs []
  unfold aggregate
  cases h : runLoop [] cs <;> cases hk : killedBy cs <;> simp_all

theorem lookupStats_of_find_none {m : ReportModel} {d : String} (a : String)
    (h : mapFind m d = none) : lookupStats m d a = none := by
  simp [lookupStats, h]

theorem lookupStats_of_find_some {m : ReportModel} {d : String} {dls : DateLineStats}
    (a : String) (h : mapFind m d = some dls) :
    lookupStats m d a = mapFind dls.lineStats a := by
  simp [lookupStats, h]

/-- The updates for a counted commit change the `LineStats` of its own date and
author only. -/
theorem lookupStats_bucketStep {m : ReportModel} (hm : WellFormed m) (e : CommitEntry)
    (d₀ d a : String) :
    lookupStats (bucketStep m d₀ e) d a =
      if (d₀ == d && e.author == a) = true then
        some (updateStats e.commit ((lookupStats m d a).getD (LineStats.new a)))
      else lookupStats m d a := by
  unfold bucketStep
  by_cases hd : d₀ = d
  · subst hd
    simp only [beq_self_eq_true, Bool.true_and]
    have hfind := mapFind_emplace_self d₀ (DateLineStats.new d₀) hm.1
    have hsorted : KeysSorted ((mapFind m d₀).getD (DateLineStats.new d₀)).lineStats := by
      cases hf : mapFind m d₀ with
      | none => simp [DateLineStats.new, KeysSorted]
      | some dls => exact (hm.2 _ (mem_of_mapFind hf)).2.1
    rw [lookupStats_of_find_some a (by rw [mapFind_modify_self, hfind]; rfl)]
    by_cases ha : e.author = a
    · subst ha
      simp only [beq_self_eq_true, if_true]
      rw [mapFind_modify_self, mapFind_emplace_self _ _ hsorted]
      cases hf : mapFind m d₀ with
      | none => simp [lookupStats, hf, DateLineStats.new, mapFind]
      | some dls => simp [lookupStats, hf]
    · have ha' : (e.author == a) = false := by simpa using ha
      simp only [ha', Bool.false_eq_true, if_false]
      rw [mapFind_modify_ne _ (Ne.symm ha), mapFind_emplace_ne _ (Ne.symm ha)]
      cases hf : mapFind m d₀ with
      | none => simp [lookupStats, hf, DateLineStats.new, mapFind]
      | some dls => simp [lookupStats, hf]
  · have hd' : (d₀ == d) = false := by simpa using hd
    simp only [hd', Bool.false_and, Bool.false_eq_true, if_false]
    unfold lookupStats
    rw [mapFind_modify_ne _ (Ne.symm hd), mapFind_emplace_ne _ (Ne.symm hd)]

/-- A commit that is skipped leaves every lookup as it was; a commit that is
counted changes the `LineStats` of its own date and author only. -/
theorem lookupStats_runStep {m m' : ReportModel} (hm : WellFormed m) {e : CommitEntry}
    (h : runStep m e = some m') (d a : String) :
    lookupStats m' d a =
      if (e.commit.parentCount == 1 && commitDate e.commit == some d && e.author == a) = true
      then some (updateStats e.commit ((lookupStats m d a).getD (LineStats.new a)))
      else lookupStats m d a := by
  rcases runStep_cases h with ⟨hp, rfl⟩ | ⟨hp, d₀, hd₀, rfl⟩
  · have hp' : (e.commit.parentCount == 1) = false := by simpa using hp
    simp [hp']
  · rw [lookupStats_bucketStep hm, hd₀]
    simp [hp]

theorem accumulate_cons (a : String) (o : Option LineStats) (e : CommitEntry)
    (l : List CommitEntry) :
    accumulate a o (e :: l) =
      accumulate a (some (updateStats e.commit (o.getD (LineStats.new a)))) l := rfl

/-- The lookups after the loop, from any well-formed start. -/
theorem lookupStats_runLoop (cs : List CommitEntry) (d a : String) :
    ∀ {m m' : ReportModel}, WellFormed m → runLoop m cs = some m' →
      lookupStats m' d a = accumulate a (lookupStats m d a) (selected cs d a) := by
  induction cs with
  | nil =>
    intro m m' _ h
    simp only [runLoop] at h
    cases h
    rfl
  | cons e rest ih =>
    intro m m' hm h
    obtain ⟨m₁, h₁, h₂⟩ := runLoop_cons_some h
    rw [ih (runStep_wellFormed hm h₁) h₂, lookupStats_runStep hm h₁]
    by_cases hsel : (e.commit.parentCount == 1 && commitDate e.commit == some d &&
        e.author == a) = true
    · simp only [hsel, if_true, selected, List.filter_cons_of_pos]
      rfl
    · simp only [hsel, if_false, selected, List.filter_cons_of_neg, Bool.false_eq_true,
        not_false_eq_true]

/-- The closed form of `updateStats` applied once for every commit of a
non-empty list. -/
theorem accumulate_some (a : String) :
    ∀ (l : List CommitEntry) (ls : LineStats), l ≠ [] →
      accumulate a (some ls) l =
        some ⟨ls.author, (ls.commits + l.length) % uiModulus,
          (ls.linesAdded + (l.map (fun e => e.commit.insertions)).sum) % uiModulus,
          (ls.linesRemoved + (l.map (fun e => e.commit.deletions)).sum) % uiModulus⟩
  | [], _, h => absurd rfl h
  | [e], ls, _ => by simp [accumulate, updateStats, uiAdd]
  | e :: e' :: l, ls, _ => by
    rw [accumulate_cons, Option.getD_some, accumulate_some a (e' :: l) _ (by simp)]
    simp only [updateStats, uiAdd, List.length_cons, List.map_cons, List.sum_cons,
      Nat.mod_add_mod]
    congr 2 <;> ring_nf

theorem accumulate_none (a : String) (l : List CommitEntry) :
    accumulate a none l =
      if l = [] then none
      else some ⟨a, l.length % uiModulus,
        (l.map (fun e => e.commit.insertions)).sum % uiModulus,
        (l.map (fun e => e.commit.deletions)).sum % uiModulus⟩ := by
  cases l with
  | nil => rfl
  | cons e l =>
    rw [accumulate_cons, Option.getD_none]
    cases l with
    | nil => simp [accumulate, updateStats, uiAdd, LineStats.new]
    | cons e' l =>
      rw [accumulate_some a (e' :: l) _ (by simp)]
      simp only [updateStats, uiAdd, LineStats.new, List.length_cons, List.map_cons,
        List.sum_cons, Nat.mod_add_mod, Nat.zero_add, reduceCtorEq, if_false]
      congr 2
      ring_nf

/-- The `LineStats` stored under a date and an author after the loop. -/
theorem lookupStats_aggregate {cs : CommitSet} {m : ReportModel} (h : aggregate cs = some m)
    (d a : String) :
    lookupStats m d a =
      if selected cs d a = [] then none
      else some ⟨a, (selected cs d a).length % uiModulus,
        ((selected cs d a).map (fun e => e.commit.insertions)).sum % uiModulus,
        ((selected cs d a).map (fun e => e.commit.deletions)).sum % uiModulus⟩ := by
  rw [lookupStats_runLoop cs d a wellFormed_nil h]
  exact accumulate_none a _

theorem mapFind_bucketStep_isSome {m : ReportModel} (hm : WellFormed m) (e : CommitEntry)
    (d₀ d : String) :
    (mapFind (bucketStep m d₀ e) d).isSome = ((mapFind m d).isSome || d₀ == d) := by
  unfold bucketStep
  by_cases hd : d₀ = d
  · subst hd
    rw [mapFind_modify_self, mapFind_emplace_self _ _ hm.1]
    simp
  · have hd' : (d₀ == d) = false := by simpa using hd
    rw [mapFind_modify_ne _ (Ne.symm hd), mapFind_emplace_ne _ (Ne.symm hd), hd',
      Bool.or_false]

theorem mapFind_runStep_isSome {m m' : ReportModel} (hm : WellFormed m) {e : CommitEntry}
    (h : runStep m e = some m') (d : String) :
    (mapFind m' d).isSome =
      ((mapFind m d).isSome ||
        (e.commit.parentCount == 1 && commitDate e.commit == some d)) := by
  rcases runStep_cases h with ⟨hp, rfl⟩ | ⟨hp, d₀, hd₀, rfl⟩
  · have hp' : (e.commit.parentCount == 1) = false := by simpa using hp
    simp [hp']
  · rw [mapFind_bucketStep_isSome hm, hd₀]
    simp [hp]

theorem mapFind_runLoop_isSome (cs : List CommitEntry) (d : String) :
    ∀ {m m' : ReportModel}, WellFormed m → runLoop m cs = some m' →
      (mapFind m' d).isSome = ((mapFind m d).isSome || hasDate cs d) := by
  induction cs with
  | nil =>
    intro m m' _ h
    simp only [runLoop] at h
    cases h
    simp [hasDate]
  | cons e rest ih =>
    intro m m' hm h
    obtain ⟨m₁, h₁, h₂⟩ := runLoop_cons_some h
    rw [ih (runStep_wellFormed hm h₁) h₂, mapFind_runStep_isSome hm h₁]
    simp [hasDate, Bool.or_assoc]

/-- A date has a bucket after the loop exactly when a counted commit has it. -/
theorem mapFind_aggregate_isSome {cs : CommitSet} {m : ReportModel}
    (h : aggregate cs = some m) (d : String) :
    (mapFind m d).isSome = hasDate cs d := by
  rw [mapFind_runLoop_isSome cs d wellFormed_nil h]
  simp [mapFind]

/-! ## Order of processing -/

theorem hasDate_perm {cs₁ cs₂ : CommitSet} (h : cs₁.Perm cs₂) (d : String) :
    hasDate cs₁ d = hasDate cs₂ d := by
  rw [Bool.eq_iff_iff]
  simp only [hasDate, List.any_eq_true]
  constructor
  · rintro ⟨e, he, hp⟩
    exact ⟨e, h.mem_iff.1 he, hp⟩
  · rintro ⟨e, he, hp⟩
    exact ⟨e, h.mem_iff.2 he, hp⟩

theorem killedBy_perm {cs₁ cs₂ : CommitSet} (h : cs₁.Perm cs₂) :
    killedBy cs₁ = killedBy cs₂ := by
  rw [Bool.eq_iff_iff]
  simp only [killedBy, List.any_eq_true]
  constructor
  · rintro ⟨e, he, hp⟩
    exact ⟨e, h.mem_iff.1 he, hp⟩
  · rintro ⟨e, he, hp⟩
    exact ⟨e, h.mem_iff.2 he, hp⟩

theorem lookupStats_perm {cs₁ cs₂ : CommitSet} {m₁ m₂ : ReportModel} (h : cs₁.Perm cs₂)
    (h₁ : aggregate cs₁ = some m₁) (h₂ : aggregate cs₂ = some m₂) (d a : String) :
    lookupStats m₁ d a = lookupStats m₂ d a := by
  have hsel : (selected cs₁ d a).Perm (selected cs₂ d a) := h.filter _
  rw [lookupStats_aggregate h₁, lookupStats_aggregate h₂, hsel.length_eq,
    (hsel.map _).sum_eq, (hsel.map _).sum_eq]
  by_cases e₁ : selected cs₁ d a = []
  · have e₂ : selected cs₂ d a = [] := by
      rw [e₁] at hsel
      exact hsel.symm.eq_nil
    simp [e₁, e₂]
  · have e₂ : selected cs₂ d a ≠ [] := by
      intro e₂
      rw [e₂] at hsel
      exact e₁ hsel.eq_nil
    simp [e₁, e₂]

/-- The outcome of the loop does not depend on the order in which the commits
are processed. -/
theorem aggregate_eq_of_perm {cs₁ cs₂ : CommitSet} (h : cs₁.Perm cs₂) :
    aggregate cs₁ = aggregate cs₂ := by
  cases h₁ : aggregate cs₁ with
  | none =>
    have hk := (aggregate_eq_none_iff cs₁).1 h₁
    rw [killedBy_perm h] at hk
    exact ((aggregate_eq_none_iff cs₂).2 hk).symm
  | some m₁ =>
    cases h₂ : aggregate cs₂ with
    | none =>
      have hk := (aggregate_eq_none_iff cs₂).1 h₂
      rw [← killedBy_perm h] at hk
      rw [(aggregate_eq_none_iff cs₁).2 hk] at h₁
      cases h₁
    | some m₂ =>
      have w₁ := aggregate_wellFormed h₁
      have w₂ := aggregate_wellFormed h₂
      congr 1
      apply map_ext w₁.1 w₂.1
      intro d
      have hsome : (mapFind m₁ d).isSome = (mapFind m₂ d).isSome := by
        rw [mapFind_aggregate_isSome h₁, mapFind_aggregate_isSome h₂, hasDate_perm h]
      cases f₁ : mapFind m₁ d with
      | none =>
        cases f₂ : mapFind m₂ d with
        | none => rfl
        | some dls₂ => rw [f₁, f₂] at hsome; simp at hsome
      | some dls₁ =>
        cases f₂ : mapFind m₂ d with
        | none => rw [f₁, f₂] at hsome; simp at hsome
        | some dls₂ =>
          obtain ⟨hd₁, hs₁, _⟩ := w₁.2 _ (mem_of_mapFind f₁)
          obtain ⟨hd₂, hs₂, _⟩ := w₂.2 _ (mem_of_mapFind f₂)
          have hls : dls₁.lineStats = dls₂.lineStats := by
            apply map_ext hs₁ hs₂
            intro a
            have := lookupStats_perm h h₁ h₂ d a
            rwa [lookupStats_of_find_some a f₁, lookupStats_of_find_some a f₂] at this
          cases dls₁
          cases dls₂
          simp only at hd₁ hd₂ hls
          rw [hd₁, hd₂, hls]

/-! ## Decimal numbers as `strftime` prints them -/

theorem digitChar_toNat {d : Nat} (h : d < 10) : (Nat.digitChar d).toNat = 48 + d := by
  interval_cases d <;> rfl

/-- What `Nat.toDigits` computes, in terms of the digits of the number. -/
theorem toDigitsCore_eq (fuel : Nat) :
    ∀ (n : Nat) (ds : List Char), n < fuel →
      Nat.toDigitsCore 10 fuel n ds =
        (if n = 0 then ['0'] else (Nat.digits 10 n).reverse.map Nat.digitChar) ++ ds := by
  induction fuel with
  | zero => intro n ds h; omega
  | succ fuel ih =>
    intro n ds h
    simp only [Nat.toDigitsCore]
    by_cases hn : n / 10 = 0
    · have hlt : n < 10 := by omega
      simp only [hn, if_true]
      by_cases h0 : n = 0
      · subst h0; rfl
      · rw [if_neg h0, Nat.digits_of_lt 10 n h0 hlt, Nat.mod_eq_of_lt hlt]
        rfl
    · have hge : 10 ≤ n := by omega
      have h0 : n ≠ 0 := by omega
      have e : Nat.digits 10 n = (n % 10) :: Nat.digits 10 (n / 10) :=
        Nat.digits_def' (by norm_num) (by omega)
      rw [if_neg hn, ih (n / 10) _ (by omega), if_neg hn, if_neg h0, e]
      simp

theorem toDigits_eq (n : Nat) :
    Nat.toDigits 10 n =
      if n = 0 then ['0'] else (Nat.digits 10 n).reverse.map Nat.digitChar := by
  rw [Nat.toDigits, toDigitsCore_eq (n + 1) n [] (by omega), List.append_nil]

theorem decodeDigits_toDigits (n : Nat) : decodeDigits (Nat.toDigits 10 n) = n := by
  rw [toDigits_eq]
  by_cases h0 : n = 0
  · subst h0; simp [decodeDigits, Nat.ofDigits]
  · rw [if_neg h0, decodeDigits, ← List.map_reverse, List.reverse_reverse, List.map_map]
    have : (Nat.digits 10 n).map ((fun c => c.toNat - 48) ∘ Nat.digitChar) = Nat.digits 10 n := by
      conv_rhs => rw [← List.map_id (Nat.digits 10 n)]
      apply List.map_congr_left
      intro d hd
      have hlt : d < 10 := Nat.digits_lt_base (by norm_num) hd
      simp [digitChar_toNat hlt]
    rw [this, Nat.ofDigits_digits]

theorem toDigits_injective {n m : Nat} (h : Nat.toDigits 10 n = Nat.toDigits 10 m) : n = m := by
  rw [← decodeDigits_toDigits n, ← decodeDigits_toDigits m, h]

theorem toDigits_no_minus (n : Nat) : ∀ c ∈ Nat.toDigits 10 n, c ≠ '-' := by
  rw [toDigits_eq]
  intro c hc
  by_cases h0 : n = 0
  · rw [if_pos h0] at hc
    simp at hc
    rw [hc]; decide
  · rw [if_neg h0] at hc
    simp only [List.mem_map, List.mem_reverse] at hc
    obtain ⟨d, hd, rfl⟩ := hc
    have hlt : d < 10 := Nat.digits_lt_base (by norm_num) hd
    interval_cases d <;> decide

theorem int_toString_eq (i : Int) :
    (toString i).data =
      if 0 ≤ i then Nat.toDigits 10 i.toNat else '-' :: Nat.toDigits 10 (-i).toNat := by
  cases i with
  | ofNat m => simp [toString, instToStringInt, Int.repr, Nat.repr, List.asString]
  | negSucc m =>
    have : ¬ (0 : Int) ≤ Int.negSucc m := by simp
    rw [if_neg this]
    simp [toString, instToStringInt, Int.repr, Nat.repr, List.asString, Int.neg_negSucc]

theorem int_toString_injective {i j : Int} (h : toString i = toString j) : i = j := by
  have h' : (toString i).data = (toString j).data := by rw [h]
  rw [int_toString_eq, int_toString_eq] at h'
  split_ifs at h' with hi hj hj
  · have := toDigits_injective h'
    omega
  · exact absurd rfl (toDigits_no_minus i.toNat '-' (by rw [h']; exact List.mem_cons_self _ _))
  · exact absurd rfl (toDigits_no_minus j.toNat '-' (by rw [← h']; exact List.mem_cons_self _ _))
  · have := toDigits_injective (List.cons.inj h').2
    omega

theorem twoDigits_injective {n m : Int} (hn : 0 ≤ n ∧ n ≤ 99) (hm : 0 ≤ m ∧ m ≤ 99)
    (h : twoDigits n = twoDigits m) : n = m := by
  have h' : (twoDigits n).data = (twoDigits m).data := by rw [h]
  simp only [twoDigits, List.cons.injEq, and_true] at h'
  have h₁ := congrArg Char.toNat h'.1
  have h₂ := congrArg Char.toNat h'.2
  rw [digitChar_toNat (by omega), digitChar_toNat (by omega)] at h₁ h₂
  omega

theorem strftimeYmd_data (tm : Tm) :
    (strftimeYmd tm).data =
      (toString (int32Wrap (tm.tm_year + 1900))).data ++
        ('/' :: (twoDigits (tm.tm_mon + 1)).data ++ '/' :: (twoDigits tm.tm_mday).data) := by
  simp [strftimeYmd, String.data_append]

/-- The text of a date determines the date, for the dates whose year since 1900
fits an `int`. -/
theorem strftimeYmd_injective {a b : Tm}
    (ha : 0 ≤ a.tm_mon ∧ a.tm_mon ≤ 11 ∧ 1 ≤ a.tm_mday ∧ a.tm_mday ≤ 31)
    (hb : 0 ≤ b.tm_mon ∧ b.tm_mon ≤ 11 ∧ 1 ≤ b.tm_mday ∧ b.tm_mday ≤ 31)
    (hya : -2147483648 ≤ a.tm_year ∧ a.tm_year ≤ 2147483647)
    (hyb : -2147483648 ≤ b.tm_year ∧ b.tm_year ≤ 2147483647)
    (h : strftimeYmd a = strftimeYmd b) : a = b := by
  have h' : (strftimeYmd a).data = (strftimeYmd b).data := by rw [h]
  rw [strftimeYmd_data, strftimeYmd_data] at h'
  obtain ⟨hy, hrest⟩ := List.append_inj' h' (by simp [twoDigits])
  have hyear := int_toString_injective (String.ext hy)
  unfold int32Wrap at hyear
  simp only [twoDigits, List.cons_append, List.nil_append, List.cons.injEq, true_and,
    and_true] at hrest
  obtain ⟨hm₁, hm₂, hd₁, hd₂⟩ := hrest
  have hmon : a.tm_mon + 1 = b.tm_mon + 1 :=
    twoDigits_injective (by omega) (by omega) (by simp [twoDigits, hm₁, hm₂])
  have hday : a.tm_mday = b.tm_mday :=
    twoDigits_injective (by omega) (by omega) (by simp [twoDigits, hd₁, hd₂])
  cases a
  cases b
  simp only [Tm.mk.injEq] at *
  omega

/-! ## The calendar date of a time stamp -/

theorem yoe_facts (era cent quad yoq : Int) (hc : 0 ≤ cent ∧ cent ≤ 3)
    (hq : 0 ≤ quad ∧ quad ≤ 24) (hy : 0 ≤ yoq ∧ yoq ≤ 3) :
    (era * 400 + cent * 100 + quad * 4 + yoq) / 400 = era ∧
    (era * 400 + cent * 100 + quad * 4 + yoq) % 400 = cent * 100 + quad * 4 + yoq ∧
    (cent * 100 + quad * 4 + yoq) / 4 = cent * 25 + quad ∧
    (cent * 100 + quad * 4 + yoq) / 100 = cent := by
  omega

/-- Known dates: the epoch, the second before it, a leap day, the last day of a
century that is not a leap year, and one that is. -/
theorem brokenDownTime_examples :
    brokenDownTime 0 = ⟨70, 0, 1⟩ ∧ brokenDownTime (-1) = ⟨69, 11, 31⟩ ∧
      brokenDownTime 1709164800 = ⟨124, 1, 29⟩ ∧ brokenDownTime 4107542399 = ⟨200, 1, 28⟩ ∧
      brokenDownTime 951782400 = ⟨100, 1, 29⟩ := by
  decide

/-- The date computed by `brokenDownTime` depends on the day `t / 86400` only. -/
theorem brokenDownTime_congr {t₁ t₂ : Int} (h : t₁ / 86400 = t₂ / 86400) : brokenDownTime t₁ = brokenDownTime t₂ := by
  simp only [brokenDownTime, h]

/-- The month and the day of the month computed by `brokenDownTime` are in range. -/
theorem brokenDownTime_range (t : Int) :
    0 ≤ (brokenDownTime t).tm_mon ∧ (brokenDownTime t).tm_mon ≤ 11 ∧
      1 ≤ (brokenDownTime t).tm_mday ∧ (brokenDownTime t).tm_mday ≤ 31 := by
  simp only [brokenDownTime]
  generalize t / 86400 = day
  generalize hdoe : (day + 719468) % 146097 = doe
  generalize hcent : min (doe / 36524) 3 = cent
  generalize hdoq : (doe - cent * 36524) % 1461 = doq
  generalize hyoq : min (doq / 365) 3 = yoq
  generalize hdoy : doq - yoq * 365 = doy
  generalize hmp : (5 * doy + 2) / 153 = mp
  have hdy : 0 ≤ doy ∧ doy ≤ 365 := by omega
  have hm : 0 ≤ mp ∧ mp ≤ 11 := by omega
  split_ifs <;> omega

/-- The function `timegmDays` undoes `brokenDownTime`: the date computed for the second
`t` is the date of day `t / 86400`. -/
theorem timegmDays_brokenDownTime (t : Int) : timegmDays (brokenDownTime t) = t / 86400 := by
  simp only [timegmDays, brokenDownTime]
  generalize t / 86400 = day
  generalize hera : (day + 719468) / 146097 = era
  generalize hdoe : (day + 719468) % 146097 = doe
  generalize hcent : min (doe / 36524) 3 = cent
  generalize hquad : (doe - cent * 36524) / 1461 = quad
  generalize hdoq : (doe - cent * 36524) % 1461 = doq
  generalize hyoq : min (doq / 365) 3 = yoq
  generalize hdoy : doq - yoq * 365 = doy
  generalize hmp : (5 * doy + 2) / 153 = mp
  have hc : 0 ≤ cent ∧ cent ≤ 3 := by omega
  have hq : 0 ≤ quad ∧ quad ≤ 24 := by omega
  have hy : 0 ≤ yoq ∧ yoq ≤ 3 := by omega
  have hdy : 0 ≤ doy ∧ doy ≤ 365 := by omega
  have hm : 0 ≤ mp ∧ mp ≤ 11 := by omega
  obtain ⟨f1, f2, f3, f4⟩ := yoe_facts era cent quad yoq hc hq hy
  have e1 : day = era * 146097 + doe - 719468 := by omega
  have e2 : doe = cent * 36524 + quad * 1461 + doq := by omega
  split_ifs
  all_goals first
    | omega
    | (simp only [show ∀ x : Int, x + 1 - 1900 + 1900 - 1 = x from fun x => by ring,
        show ∀ x : Int, x + 0 - 1900 + 1900 = x from fun x => by ring, f1, f2, f3, f4]
       omega)

theorem brokenDownTime_injective {t₁ t₂ : Int} (h : brokenDownTime t₁ = brokenDownTime t₂) :
    t₁ / 86400 = t₂ / 86400 := by
  rw [← timegmDays_brokenDownTime t₁, ← timegmDays_brokenDownTime t₂, h]

theorem gmtime_eq_some {t : Int} {tm : Tm} (h : gmtime t = some tm) :
    tm = brokenDownTime t ∧ -2147483648 ≤ tm.tm_year ∧ tm.tm_year ≤ 2147483647 := by
  unfold gmtime at h
  split_ifs at h with hr
  cases h
  exact ⟨rfl, hr.1, hr.2⟩

theorem commitDate_eq_some {c : GitCommit} {d : String} (h : commitDate c = some d) :
    d = strftimeYmd (brokenDownTime c.time) ∧
      -2147483648 ≤ (brokenDownTime c.time).tm_year ∧
      (brokenDownTime c.time).tm_year ≤ 2147483647 := by
  unfold commitDate at h
  cases hg : gmtime c.time with
  | none => rw [hg] at h; cases h
  | some tm =>
    rw [hg] at h
    obtain ⟨rfl, h₁, h₂⟩ := gmtime_eq_some hg
    exact ⟨(Option.some.inj h).symm, h₁, h₂⟩

theorem commitDate_of_fits {c : GitCommit}
    (h : -2147483648 ≤ (brokenDownTime c.time).tm_year ∧
      (brokenDownTime c.time).tm_year ≤ 2147483647) :
    commitDate c = some (strftimeYmd (brokenDownTime c.time)) := by
  simp [commitDate, gmtime, h]

/-- Two date texts that `commitDate` returns are equal exactly when the time
stamps lie in the same UTC day. -/
theorem commitDate_eq_iff_day {c₁ c₂ : GitCommit} {d₁ d₂ : String}
    (h₁ : commitDate c₁ = some d₁) (h₂ : commitDate c₂ = some d₂) :
    d₁ = d₂ ↔ c₁.time / 86400 = c₂.time / 86400 := by
  obtain ⟨rfl, y₁⟩ := commitDate_eq_some h₁
  obtain ⟨rfl, y₂⟩ := commitDate_eq_some h₂
  constructor
  · intro h
    exact brokenDownTime_injective
      (strftimeYmd_injective (brokenDownTime_range _) (brokenDownTime_range _) y₁ y₂ h)
  · intro h
    rw [brokenDownTime_congr h]

theorem year_quotients (era cent quad yoq : Int) (hc : 0 ≤ cent ∧ cent ≤ 3)
    (hq : 0 ≤ quad ∧ quad ≤ 24) (hy : 0 ≤ yoq ∧ yoq ≤ 3) :
    (era * 400 + cent * 100 + quad * 4 + yoq) / 4 = era * 100 + cent * 25 + quad ∧
    (era * 400 + cent * 100 + quad * 4 + yoq) / 100 = era * 4 + cent ∧
    (era * 400 + cent * 100 + quad * 4 + yoq) / 400 = era := by
  omega

theorem next_year_quotients (era cent quad yoq : Int) (hc : 0 ≤ cent ∧ cent ≤ 3)
    (hq : 0 ≤ quad ∧ quad ≤ 24) (hy : 0 ≤ yoq ∧ yoq ≤ 3) :
    (era * 400 + cent * 100 + quad * 4 + yoq + 1) / 4 =
      era * 100 + cent * 25 + quad + (if yoq = 3 then 1 else 0) ∧
    (era * 400 + cent * 100 + quad * 4 + yoq + 1) / 100 =
      era * 4 + cent + (if yoq = 3 ∧ quad = 24 then 1 else 0) ∧
    (era * 400 + cent * 100 + quad * 4 + yoq + 1) / 400 =
      era + (if yoq = 3 ∧ quad = 24 ∧ cent = 3 then 1 else 0) := by
  refine ⟨?_, ?_, ?_⟩ <;> split_ifs <;> omega

/-- The decomposition of a day number on which `brokenDownTime` rests: the year
starting in March, the day of that year, and the date they give. -/
theorem brokenDownTime_decompose (t : Int) :
    ∃ y doy mp : Int,
      0 ≤ doy ∧ doy ≤ 365 ∧ 0 ≤ mp ∧ mp ≤ 11 ∧ mp = (5 * doy + 2) / 153 ∧
      t / 86400 + 719468 = marchDays y + doy ∧
      t / 86400 + 719468 < marchDays (y + 1) ∧
      (brokenDownTime t).tm_year + 1900 = y + (if mp < 10 then 0 else 1) ∧
      (brokenDownTime t).tm_mon + 1 = (if mp < 10 then mp + 3 else mp - 9) ∧
      (brokenDownTime t).tm_mday = doy - (153 * mp + 2) / 5 + 1 := by
  simp only [brokenDownTime]
  generalize t / 86400 = day
  generalize hera : (day + 719468) / 146097 = era
  generalize hdoe : (day + 719468) % 146097 = doe
  generalize hcent : min (doe / 36524) 3 = cent
  generalize hquad : (doe - cent * 36524) / 1461 = quad
  generalize hdoq : (doe - cent * 36524) % 1461 = doq
  generalize hyoq : min (doq / 365) 3 = yoq
  generalize hdoy : doq - yoq * 365 = doy
  generalize hmp : (5 * doy + 2) / 153 = mp
  have hc : 0 ≤ cent ∧ cent ≤ 3 := by omega
  have hq : 0 ≤ quad ∧ quad ≤ 24 := by omega
  have hy : 0 ≤ yoq ∧ yoq ≤ 3 := by omega
  have hdy : 0 ≤ doy ∧ doy ≤ 365 := by omega
  have hm : 0 ≤ mp ∧ mp ≤ 11 := by omega
  have e1 : day + 719468 = era * 146097 + doe := by omega
  have e2 : doe = cent * 36524 + quad * 1461 + doq := by omega
  obtain ⟨q1, q2, q3⟩ := year_quotients era cent quad yoq hc hq hy
  obtain ⟨n1, n2, n3⟩ := next_year_quotients era cent quad yoq hc hq hy
  refine ⟨era * 400 + cent * 100 + quad * 4 + yoq, doy, mp, hdy.1, hdy.2, hm.1, hm.2,
    hmp.symm, ?_, ?_, ?_, ?_, ?_⟩
  · unfold marchDays; rw [q1, q2, q3]; omega
  · unfold marchDays; rw [n1, n2, n3]; split_ifs <;> omega
  · split_ifs <;> omega
  · split_ifs <;> omega
  · rfl

theorem marchDays_mono {a b : Int} (h : a ≤ b) : marchDays a ≤ marchDays b := by
  unfold marchDays
  rcases eq_or_lt_of_le h with rfl | h
  · exact le_refl _
  · omega

/-- A later day has a later calendar date. -/
theorem brokenDownTime_before {t₁ t₂ : Int} (h : t₁ / 86400 < t₂ / 86400) :
    (brokenDownTime t₁).before (brokenDownTime t₂) := by
  obtain ⟨y₁, doy₁, mp₁, a1, a2, a3, a4, a5, a6, a7, a8, a9, a10⟩ := brokenDownTime_decompose t₁
  obtain ⟨y₂, doy₂, mp₂, b1, b2, b3, b4, b5, b6, b7, b8, b9, b10⟩ := brokenDownTime_decompose t₂
  have hy : y₁ ≤ y₂ := by
    by_contra hlt
    have := marchDays_mono (show y₂ + 1 ≤ y₁ by omega)
    omega
  unfold Tm.before
  rcases eq_or_lt_of_le hy with rfl | hy
  · have hd : doy₁ < doy₂ := by omega
    have hmp : mp₁ ≤ mp₂ := by omega
    have hday : mp₁ = mp₂ → (brokenDownTime t₁).tm_mday < (brokenDownTime t₂).tm_mday := by
      intro e
      rw [a10, b10, e]
      omega
    clear a5 b5 a6 b6 a7 b7 a10 b10 h
    split_ifs at a8 a9 b8 b9 <;> omega
  · clear a5 b5 a6 b6 a7 b7 a10 b10 h
    split_ifs at a8 a9 b8 b9 <;> omega

/-! ## Dates with a four-digit year -/

theorem digits_four {n : Nat} (h₁ : 1000 ≤ n) (h₂ : n ≤ 9999) :
    Nat.digits 10 n = [n % 10, n / 10 % 10, n / 100 % 10, n / 1000] := by
  have e₁ : Nat.digits 10 n = (n % 10) :: Nat.digits 10 (n / 10) :=
    Nat.digits_def' (by norm_num) (by omega)
  have e₂ : Nat.digits 10 (n / 10) = (n / 10 % 10) :: Nat.digits 10 (n / 10 / 10) :=
    Nat.digits_def' (by norm_num) (by omega)
  have e₃ : Nat.digits 10 (n / 10 / 10) = (n / 10 / 10 % 10) :: Nat.digits 10 (n / 10 / 10 / 10) :=
    Nat.digits_def' (by norm_num) (by omega)
  have e₄ : Nat.digits 10 (n / 10 / 10 / 10) = [n / 10 / 10 / 10] :=
    Nat.digits_of_lt 10 _ (by omega) (by omega)
  rw [e₁, e₂, e₃, e₄]
  have h₃ : n / 10 / 10 = n / 100 := by omega
  have h₄ : n / 10 / 10 / 10 = n / 1000 := by omega
  rw [h₄, h₃]

theorem toString_four {y : Int} (h₁ : 1000 ≤ y) (h₂ : y ≤ 9999) :
    (toString y).data =
      [Nat.digitChar (y.toNat / 1000), Nat.digitChar (y.toNat / 100 % 10),
        Nat.digitChar (y.toNat / 10 % 10), Nat.digitChar (y.toNat % 10)] := by
  rw [int_toString_eq, if_pos (by omega), toDigits_eq, if_neg (by omega),
    digits_four (by omega) (by omega)]
  rfl

theorem lexLt_digit_lt {p q : Nat} (hp : p < 10) (hq : q < 10) (h : p < q)
    (as bs : List Char) : lexLt (Nat.digitChar p :: as) (Nat.digitChar q :: bs) = true := by
  rw [lexLt, digitChar_toNat hp, digitChar_toNat hq, if_pos (by omega)]

theorem lexLt_same (c : Char) (as bs : List Char) :
    lexLt (c :: as) (c :: bs) = lexLt as bs := by
  rw [lexLt]
  simp

theorem lexLt_ten_digits {a₃ a₂ a₁ a₀ m₁ m₀ d₁ d₀ b₃ b₂ b₁ b₀ n₁ n₀ e₁ e₀ : Nat}
    (ha₃ : a₃ < 10) (ha₂ : a₂ < 10) (ha₁ : a₁ < 10) (ha₀ : a₀ < 10)
    (hm₁ : m₁ < 10) (hm₀ : m₀ < 10) (hd₁ : d₁ < 10) (hd₀ : d₀ < 10)
    (hb₃ : b₃ < 10) (hb₂ : b₂ < 10) (hb₁ : b₁ < 10) (hb₀ : b₀ < 10)
    (hn₁ : n₁ < 10) (hn₀ : n₀ < 10) (he₁ : e₁ < 10) (he₀ : e₀ < 10)
    (h : a₃ * 1000 + a₂ * 100 + a₁ * 10 + a₀ < b₃ * 1000 + b₂ * 100 + b₁ * 10 + b₀ ∨
      (a₃ * 1000 + a₂ * 100 + a₁ * 10 + a₀ = b₃ * 1000 + b₂ * 100 + b₁ * 10 + b₀ ∧
        (m₁ * 10 + m₀ < n₁ * 10 + n₀ ∨
          (m₁ * 10 + m₀ = n₁ * 10 + n₀ ∧ d₁ * 10 + d₀ < e₁ * 10 + e₀)))) :
    lexLt
      [Nat.digitChar a₃, Nat.digitChar a₂, Nat.digitChar a₁, Nat.digitChar a₀, '/',
        Nat.digitChar m₁, Nat.digitChar m₀, '/', Nat.digitChar d₁, Nat.digitChar d₀]
      [Nat.digitChar b₃, Nat.digitChar b₂, Nat.digitChar b₁, Nat.digitChar b₀, '/',
        Nat.digitChar n₁, Nat.digitChar n₀, '/', Nat.digitChar e₁, Nat.digitChar e₀] = true := by
  have key : a₃ < b₃ ∨ (a₃ = b₃ ∧ (a₂ < b₂ ∨ (a₂ = b₂ ∧ (a₁ < b₁ ∨ (a₁ = b₁ ∧
      (a₀ < b₀ ∨ (a₀ = b₀ ∧ (m₁ < n₁ ∨ (m₁ = n₁ ∧ (m₀ < n₀ ∨ (m₀ = n₀ ∧
        (d₁ < e₁ ∨ (d₁ = e₁ ∧ d₀ < e₀))))))))))))) := by omega
  rcases key with k | ⟨rfl, k | ⟨rfl, k | ⟨rfl, k | ⟨rfl, k | ⟨rfl, k | ⟨rfl, k | ⟨rfl, k⟩⟩⟩⟩⟩⟩⟩
  all_goals
    repeat rw [lexLt_same]
    exact lexLt_digit_lt (by assumption) (by assumption) k _ _

theorem lexLt_ymd {y₁ m₁ d₁ y₂ m₂ d₂ : Nat}
    (hy₁ : y₁ ≤ 9999) (hm₁ : m₁ ≤ 99) (hd₁ : d₁ ≤ 99)
    (hy₂ : y₂ ≤ 9999) (hm₂ : m₂ ≤ 99) (hd₂ : d₂ ≤ 99)
    (h : y₁ < y₂ ∨ (y₁ = y₂ ∧ (m₁ < m₂ ∨ (m₁ = m₂ ∧ d₁ < d₂)))) :
    lexLt
      [Nat.digitChar (y₁ / 1000), Nat.digitChar (y₁ / 100 % 10), Nat.digitChar (y₁ / 10 % 10),
        Nat.digitChar (y₁ % 10), '/', Nat.digitChar (m₁ / 10), Nat.digitChar (m₁ % 10), '/',
        Nat.digitChar (d₁ / 10), Nat.digitChar (d₁ % 10)]
      [Nat.digitChar (y₂ / 1000), Nat.digitChar (y₂ / 100 % 10), Nat.digitChar (y₂ / 10 % 10),
        Nat.digitChar (y₂ % 10), '/', Nat.digitChar (m₂ / 10), Nat.digitChar (m₂ % 10), '/',
        Nat.digitChar (d₂ / 10), Nat.digitChar (d₂ % 10)] = true :=
  lexLt_ten_digits (by omega) (by omega) (by omega) (by omega) (by omega) (by omega)
    (by omega) (by omega) (by omega) (by omega) (by omega) (by omega) (by omega) (by omega)
    (by omega) (by omega) (by omega)

/-- For dates with a four-digit year the order of the texts is the order of the
calendar. -/
theorem strftimeYmd_less {a b : Tm}
    (ha : 1000 ≤ a.tm_year + 1900 ∧ a.tm_year + 1900 ≤ 9999 ∧ 0 ≤ a.tm_mon ∧ a.tm_mon ≤ 11 ∧
      1 ≤ a.tm_mday ∧ a.tm_mday ≤ 31)
    (hb : 1000 ≤ b.tm_year + 1900 ∧ b.tm_year + 1900 ≤ 9999 ∧ 0 ≤ b.tm_mon ∧ b.tm_mon ≤ 11 ∧
      1 ≤ b.tm_mday ∧ b.tm_mday ≤ 31)
    (h : a.before b) : stringLess (strftimeYmd a) (strftimeYmd b) = true := by
  unfold stringLess
  have wa : int32Wrap (a.tm_year + 1900) = a.tm_year + 1900 := by
    unfold int32Wrap
    omega
  have wb : int32Wrap (b.tm_year + 1900) = b.tm_year + 1900 := by
    unfold int32Wrap
    omega
  rw [strftimeYmd_data, strftimeYmd_data, wa, wb, toString_four ha.1 ha.2.1,
    toString_four hb.1 hb.2.1]
  unfold Tm.before at h
  exact lexLt_ymd (by omega) (by omega) (by omega) (by omega) (by omega) (by omega) (by omega)

theorem brokenDownTime_year_ge {t : Int} (h : -30610224000 ≤ t) : 1000 ≤ (brokenDownTime t).tm_year + 1900 := by
  have h₀ : brokenDownTime (-30610224000) = ⟨-900, 0, 1⟩ := by decide
  rcases eq_or_lt_of_le (show (-30610224000 : Int) / 86400 ≤ t / 86400 by omega) with e | e
  · rw [← brokenDownTime_congr e, h₀]
    decide
  · have := brokenDownTime_before e
    rw [h₀] at this
    unfold Tm.before at this
    have := brokenDownTime_range t
    simp only at *
    omega

theorem brokenDownTime_year_le {t : Int} (h : t ≤ 253402300799) : (brokenDownTime t).tm_year + 1900 ≤ 9999 := by
  have h₀ : brokenDownTime 253402300799 = ⟨8099, 11, 31⟩ := by decide
  rcases eq_or_lt_of_le (show t / 86400 ≤ (253402300799 : Int) / 86400 by omega) with e | e
  · rw [brokenDownTime_congr e, h₀]
    decide
  · have := brokenDownTime_before e
    rw [h₀] at this
    unfold Tm.before at this
    have := brokenDownTime_range t
    simp only at *
    omega

/-- A time stamp of the years 1000 to 9999 has a date text. -/
theorem commitDate_of_fourDigitYear {c : GitCommit} (h : FourDigitYear c.time) :
    commitDate c = some (strftimeYmd (brokenDownTime c.time)) := by
  have h₁ := brokenDownTime_year_ge h.1
  have h₂ := brokenDownTime_year_le h.2
  exact commitDate_of_fits ⟨by omega, by omega⟩

/-- Between the years 1000 and 9999 a later day has a greater date text. -/
theorem commitDate_less {c₁ c₂ : GitCommit} (h₁ : FourDigitYear c₁.time)
    (h₂ : FourDigitYear c₂.time) (h : c₁.time / 86400 < c₂.time / 86400) :
    stringLess (strftimeYmd (brokenDownTime c₁.time)) (strftimeYmd (brokenDownTime c₂.time)) =
      true :=
  strftimeYmd_less
    ⟨brokenDownTime_year_ge h₁.1, brokenDownTime_year_le h₁.2, brokenDownTime_range _⟩
    ⟨brokenDownTime_year_ge h₂.1, brokenDownTime_year_le h₂.2, brokenDownTime_range _⟩
    (brokenDownTime_before h)

/-- The first and the last day that `gmtime` converts. -/
theorem brokenDownTime_bounds :
    brokenDownTime (-67768040609740800) = ⟨-2147483648, 0, 1⟩ ∧
      brokenDownTime 67768036191676799 = ⟨2147483647, 11, 31⟩ := by
  decide

/-- The year since 1900 fits an `int` exactly for the time stamps of
`GmtimeRange`. -/
theorem year_fits_iff (t : Int) :
    (-2147483648 ≤ (brokenDownTime t).tm_year ∧ (brokenDownTime t).tm_year ≤ 2147483647) ↔
      GmtimeRange t := by
  obtain ⟨lo, hi⟩ := brokenDownTime_bounds
  have hr := brokenDownTime_range t
  unfold GmtimeRange
  constructor
  · rintro ⟨h₁, h₂⟩
    constructor
    · by_contra hlt
      have hb := brokenDownTime_before (show t / 86400 < (-67768040609740800 : Int) / 86400 by omega)
      rw [lo] at hb
      unfold Tm.before at hb
      simp only at hb
      omega
    · by_contra hgt
      have hb := brokenDownTime_before (show (67768036191676799 : Int) / 86400 < t / 86400 by omega)
      rw [hi] at hb
      unfold Tm.before at hb
      simp only at hb
      omega
  · rintro ⟨h₁, h₂⟩
    constructor
    · rcases eq_or_lt_of_le
        (show (-67768040609740800 : Int) / 86400 ≤ t / 86400 by omega) with e | e
      · rw [← brokenDownTime_congr e, lo]
      · have hb := brokenDownTime_before e
        rw [lo] at hb
        unfold Tm.before at hb
        simp only at hb
        omega
    · rcases eq_or_lt_of_le
        (show t / 86400 ≤ (67768036191676799 : Int) / 86400 by omega) with e | e
      · rw [brokenDownTime_congr e, hi]
      · have hb := brokenDownTime_before e
        rw [hi] at hb
        unfold Tm.before at hb
        simp only at hb
        omega

/-- The function `commitDate` returns a date text exactly for the time stamps of
`GmtimeRange`; for the others the program is killed. -/
theorem commitDate_isSome_iff (c : GitCommit) :
    (commitDate c).isSome = true ↔ GmtimeRange c.time := by
  rw [← year_fits_iff]
  constructor
  · intro h
    obtain ⟨d, hd⟩ := Option.isSome_iff_exists.1 h
    exact (commitDate_eq_some hd).2
  · intro h
    rw [commitDate_of_fits h]
    rfl

/-! ## `renderTable` -/

theorem sublist_pair_of_pairwise {l : List String}
    (hl : l.Pairwise (fun a b => stringLess a b = true)) {a b : String}
    (ha : a ∈ l) (hb : b ∈ l) (hab : stringLess a b = true) : [a, b].Sublist l := by
  induction l with
  | nil => simp at ha
  | cons x xs ih =>
    have hl' := List.pairwise_cons.1 hl
    rcases List.mem_cons.1 ha with rfl | ha'
    · rcases List.mem_cons.1 hb with rfl | hb'
      · rw [stringLess_irrefl] at hab
        exact absurd hab (by simp)
      · exact List.Sublist.cons₂ _ (List.singleton_sublist.2 hb')
    · rcases List.mem_cons.1 hb with rfl | hb'
      · have := stringLess_asymm (hl'.1 a ha')
        rw [hab] at this
        exact absurd this (by simp)
      · exact List.Sublist.cons _ (ih hl'.2 ha' hb')

theorem pairwise_stringLess_nodup {l : List String}
    (hl : l.Pairwise (fun a b => stringLess a b = true)) : l.Nodup :=
  hl.imp (fun h => stringLess_ne h)

theorem renderTable_dates {m : ReportModel} (hm : WellFormed m) :
    (renderTable m).map Prod.fst = m.map Prod.fst := by
  simp only [renderTable, List.map_map]
  apply List.map_congr_left
  intro p hp
  exact (hm.2 p hp).1

theorem renderTable_authors {m : ReportModel} (hm : WellFormed m)
    {block : String × List LineStats} (hb : block ∈ renderTable m) :
    (block.2.map LineStats.author).Pairwise (fun a b => stringLess a b = true) := by
  simp only [renderTable, List.mem_map] at hb
  obtain ⟨p, hp, rfl⟩ := hb
  obtain ⟨_, hs, ha⟩ := hm.2 p hp
  have : (p.2.lineStats.map (fun q => q.2)).map LineStats.author = p.2.lineStats.map Prod.fst := by
    rw [List.map_map]
    apply List.map_congr_left
    intro q hq
    exact ha q hq
  rw [this]
  exact (keysSorted_iff _).1 hs

/-- After a loop that completes, every counted commit has a date text, and the
map has a bucket under it. -/
theorem commitDate_mem_aggregate {cs : CommitSet} {m : ReportModel}
    (hm : aggregate cs = some m) {e : CommitEntry} (he : e ∈ cs)
    (hp : e.commit.parentCount = 1) :
    ∃ d, commitDate e.commit = some d ∧ d ∈ m.map Prod.fst := by
  have hk : killedBy cs = false := by
    cases hk : killedBy cs
    · rfl
    · rw [(aggregate_eq_none_iff cs).2 hk] at hm
      cases hm
  cases hd : commitDate e.commit with
  | none =>
    have : killedBy cs = true := by
      simp only [killedBy, List.any_eq_true]
      exact ⟨e, he, by simp [hp, hd]⟩
    rw [hk] at this
    cases this
  | some d =>
    refine ⟨d, rfl, ?_⟩
    have h : (mapFind m d).isSome = true := by
      rw [mapFind_aggregate_isSome hm]
      simp only [hasDate, List.any_eq_true]
      exact ⟨e, he, by simp [hp, hd]⟩
    obtain ⟨dls, hf⟩ := Option.isSome_iff_exists.1 h
    exact List.mem_map.2 ⟨_, mem_of_mapFind hf, rfl⟩

/-! ## Errors -/

theorem walkBranch_error {w : List (Option GitCommit)} (h : w.any Option.isNone = true) :
    ∀ st, ∃ msg, walkBranch w st = .error msg := by
  induction w with
  | nil => simp at h
  | cons x xs ih =>
    intro st
    cases x with
    | none => exact ⟨_, rfl⟩
    | some c =>
      obtain ⟨l, cl⟩ := st
      simp only [List.any_cons, Option.isNone_some, Bool.false_or] at h
      exact ih h _

theorem walkBranch_ok {w : List (Option GitCommit)} (h : w.any Option.isNone = false) :
    ∀ st : Int × List GitCommit,
      walkBranch w st = .ok (latestAfter st.1 (w.filterMap id), st.2 ++ w.filterMap id) := by
  induction w with
  | nil => intro st; simp [walkBranch, latestAfter]
  | cons x xs ih =>
    intro st
    cases x with
    | none => simp at h
    | some c =>
      obtain ⟨l, cl⟩ := st
      simp only [List.any_cons, Option.isNone_some, Bool.false_or] at h
      simp only [walkBranch]
      rw [ih h]
      simp [latestAfter]

theorem latestAfter_append (start : Int) (l₁ l₂ : List GitCommit) :
    latestAfter start (l₁ ++ l₂) = latestAfter (latestAfter start l₁) l₂ := by
  simp [latestAfter, List.foldl_append]

theorem scanBranches_error {bs : List Branch} (h : bs.any branchFails = true) :
    ∀ st, ∃ msg, scanBranches bs st = .error msg := by
  induction bs with
  | nil => simp at h
  | cons b rest ih =>
    intro st
    simp only [scanBranches]
    cases hn : b.revwalkNew with
    | false => exact ⟨"Could not initialize walker", by simp⟩
    | true =>
      cases hp : b.revwalkPush with
      | false => exact ⟨"Could not iterate branch", by simp⟩
      | true =>
        cases hw : b.walk.any Option.isNone with
        | true =>
          obtain ⟨msg, hmsg⟩ := walkBranch_error hw st
          exact ⟨msg, by simp [hmsg]⟩
        | false =>
          have hrest : rest.any branchFails = true := by
            simpa [branchFails, hn, hp, hw] using h
          obtain ⟨msg, hmsg⟩ := ih hrest (latestAfter st.1 (b.walk.filterMap id),
            st.2 ++ b.walk.filterMap id)
          exact ⟨msg, by simp [walkBranch_ok hw, hmsg]⟩

theorem scanBranches_ok {bs : List Branch} (h : bs.any branchFails = false) :
    ∀ st : Int × List GitCommit,
      scanBranches bs st =
        .ok (latestAfter st.1 (allCommits ⟨bs⟩), st.2 ++ allCommits ⟨bs⟩) := by
  induction bs with
  | nil => intro st; simp [scanBranches, allCommits, latestAfter]
  | cons b rest ih =>
    intro st
    simp only [List.any_cons, Bool.or_eq_false_iff] at h
    obtain ⟨hb, hrest⟩ := h
    simp only [branchFails, Bool.or_eq_false_iff, Bool.not_eq_false'] at hb
    obtain ⟨⟨hn, hp⟩, hw⟩ := hb
    simp only [scanBranches, hn, hp, Bool.not_true, Bool.false_eq_true, if_false,
      walkBranch_ok hw, ih hrest]
    simp [allCommits, latestAfter_append]

/-- What `findCommits` returns when no call fails. -/
theorem findCommits_ok {h : StdHash} {repo : Repository} (nDays : Nat)
    (hok : repo.branches.any branchFails = false) :
    findCommits h repo nDays =
      .ok (collectWindow h (latestAfter 0 (allCommits repo)) nDays (allCommits repo)) := by
  simp [findCommits, scanBranches_ok hok]

theorem findCommits_error {h : StdHash} {repo : Repository} (nDays : Nat)
    (hfail : repo.branches.any branchFails = true) :
    ∃ msg, findCommits h repo nDays = .error msg := by
  obtain ⟨msg, hmsg⟩ := scanBranches_error hfail (0, [])
  exact ⟨msg, by simp [findCommits, hmsg]⟩

theorem findCommits_eq_ok {h : StdHash} {repo : Repository} {nDays : Nat} {cs : CommitSet}
    (hfind : findCommits h repo nDays = .ok cs) :
    cs = collectWindow h (latestAfter 0 (allCommits repo)) nDays (allCommits repo) := by
  cases hf : repo.branches.any branchFails with
  | true =>
    obtain ⟨msg, hmsg⟩ := findCommits_error (h := h) nDays hf
    rw [hmsg] at hfind
    cases hfind
  | false =>
    rw [findCommits_ok nDays hf] at hfind
    cases hfind
    rfl

/-! ## `CommitSet` and the second loop of `findCommits` -/

theorem CommitEntry.eq_self (e : CommitEntry) : e.eq e = true := by
  simp [CommitEntry.eq]

theorem entryOf_injective {c c' : GitCommit} (h : entryOf c = entryOf c') : c = c' := by
  have := congrArg CommitEntry.commit h
  exact this

theorem setEmplace_mem {h : StdHash} {cs : CommitSet} {e x : CommitEntry}
    (hx : x ∈ setEmplace h cs e) : x ∈ cs ∨ x = e := by
  unfold setEmplace at hx
  split_ifs at hx
  · exact Or.inl hx
  · rcases List.mem_append.1 hx with hx | hx
    · exact Or.inl hx
    · exact Or.inr (List.mem_singleton.1 hx)

theorem setEmplace_subset {h : StdHash} {cs : CommitSet} (e : CommitEntry) {x : CommitEntry}
    (hx : x ∈ cs) : x ∈ setEmplace h cs e := by
  unfold setEmplace
  split_ifs
  · exact hx
  · exact List.mem_append_left _ hx

theorem setEmplace_nodup {h : StdHash} {cs : CommitSet} (e : CommitEntry) (hn : cs.Nodup) :
    (setEmplace h cs e).Nodup := by
  unfold setEmplace
  split_ifs with hany
  · exact hn
  · refine List.Nodup.append hn (List.nodup_singleton e) ?_
    intro x hx hx'
    rw [List.mem_singleton] at hx'
    subst hx'
    apply hany
    rw [List.any_eq_true]
    exact ⟨x, hx, by simp [CommitEntry.eq_self]⟩

/-- After `emplace(e)` the set holds an element that stands for `e`. -/
theorem setEmplace_rep (h : StdHash) (cs : CommitSet) (e : CommitEntry) :
    ∃ y ∈ setEmplace h cs e, CommitEntryHash h y = CommitEntryHash h e ∧ e.eq y = true := by
  unfold setEmplace
  split_ifs with hany
  · rw [List.any_eq_true] at hany
    obtain ⟨y, hy, hp⟩ := hany
    simp only [Bool.and_eq_true, beq_iff_eq] at hp
    exact ⟨y, hy, hp.1, hp.2⟩
  · exact ⟨e, List.mem_append_right _ (List.mem_singleton_self e), rfl, e.eq_self⟩

/-- The call `emplace(e)` adds `e` when `operator==` declares no element of the
set equal to it. -/
theorem setEmplace_new (h : StdHash) (cs : CommitSet) (e : CommitEntry)
    (hne : cs.all (fun x => !e.eq x) = true) : setEmplace h cs e = cs ++ [e] := by
  unfold setEmplace
  rw [if_neg]
  intro hany
  rw [List.any_eq_true] at hany
  obtain ⟨x, hx, hp⟩ := hany
  rw [List.all_eq_true] at hne
  have := hne x hx
  simp only [Bool.and_eq_true] at hp
  simp [hp.2] at this

/-- The call `emplace(e)` leaves the set as it is when it holds `e`. -/
theorem setEmplace_old (h : StdHash) (cs : CommitSet) (e : CommitEntry)
    (hmem : e ∈ cs) : setEmplace h cs e = cs := by
  unfold setEmplace
  rw [if_pos]
  rw [List.any_eq_true]
  exact ⟨e, hmem, by simp [CommitEntry.eq_self]⟩

theorem windowFold_nodup (h : StdHash) (latest : Int) (nDays : Nat) (l : List GitCommit) :
    ∀ {init : CommitSet}, init.Nodup →
      (l.foldl (fun commits commit =>
        if inWindow latest nDays commit.time then setEmplace h commits (entryOf commit)
        else commits) init).Nodup := by
  induction l with
  | nil => intro init hn; exact hn
  | cons c rest ih =>
    intro init hn
    rw [List.foldl_cons]
    apply ih
    split_ifs
    · exact setEmplace_nodup _ hn
    · exact hn

theorem windowFold_mem (h : StdHash) (latest : Int) (nDays : Nat) (l : List GitCommit)
    {x : CommitEntry} :
    ∀ {init : CommitSet},
      x ∈ l.foldl (fun commits commit =>
        if inWindow latest nDays commit.time then setEmplace h commits (entryOf commit)
        else commits) init →
      x ∈ init ∨ ∃ c ∈ l, inWindow latest nDays c.time = true ∧ x = entryOf c := by
  induction l with
  | nil => intro init hx; exact Or.inl hx
  | cons c rest ih =>
    intro init hx
    rw [List.foldl_cons] at hx
    rcases ih hx with hx | ⟨c', hc', hw, rfl⟩
    · split_ifs at hx with hw
      · rcases setEmplace_mem hx with hx | rfl
        · exact Or.inl hx
        · exact Or.inr ⟨c, List.mem_cons_self _ _, hw, rfl⟩
      · exact Or.inl hx
    · exact Or.inr ⟨c', List.mem_cons_of_mem _ hc', hw, rfl⟩

theorem windowFold_subset (h : StdHash) (latest : Int) (nDays : Nat) (l : List GitCommit)
    {x : CommitEntry} :
    ∀ {init : CommitSet}, x ∈ init →
      x ∈ l.foldl (fun commits commit =>
        if inWindow latest nDays commit.time then setEmplace h commits (entryOf commit)
        else commits) init := by
  induction l with
  | nil => intro init hx; exact hx
  | cons c rest ih =>
    intro init hx
    rw [List.foldl_cons]
    apply ih
    split_ifs
    · exact setEmplace_subset _ hx
    · exact hx

theorem windowFold_rep (h : StdHash) (latest : Int) (nDays : Nat) (l : List GitCommit)
    {c : GitCommit} (hw : inWindow latest nDays c.time = true) :
    ∀ {init : CommitSet}, c ∈ l →
      ∃ y ∈ l.foldl (fun commits commit =>
          if inWindow latest nDays commit.time then setEmplace h commits (entryOf commit)
          else commits) init,
        CommitEntryHash h y = CommitEntryHash h (entryOf c) ∧ (entryOf c).eq y = true := by
  induction l with
  | nil => intro init hc; simp at hc
  | cons c' rest ih =>
    intro init hc
    rw [List.foldl_cons]
    rcases List.mem_cons.1 hc with rfl | hc
    · rw [if_pos hw]
      obtain ⟨y, hy, hp⟩ := setEmplace_rep h init (entryOf c)
      exact ⟨y, windowFold_subset h latest nDays rest hy, hp⟩
    · exact ih hc

theorem collectWindow_nodup (h : StdHash) (latest : Int) (nDays : Nat) (l : List GitCommit) :
    (collectWindow h latest nDays l).Nodup :=
  windowFold_nodup h latest nDays l List.nodup_nil

theorem collectWindow_mem {h : StdHash} {latest : Int} {nDays : Nat} {l : List GitCommit}
    {x : CommitEntry} (hx : x ∈ collectWindow h latest nDays l) :
    ∃ c ∈ l, inWindow latest nDays c.time = true ∧ x = entryOf c := by
  rcases windowFold_mem h latest nDays l hx with hx | hx
  · simp at hx
  · exact hx

/-- The number of times the entry of a commit occurs in the set built by the
second loop of `findCommits`. -/
theorem collectWindow_count (h : StdHash) (latest : Int) (nDays : Nat) {l : List GitCommit}
    {c : GitCommit} (hc : c ∈ l)
    (huniq : ∀ c' ∈ l, CommitEntryHash h (entryOf c') = CommitEntryHash h (entryOf c) →
      (entryOf c).eq (entryOf c') = true → c' = c) :
    (collectWindow h latest nDays l).count (entryOf c) =
      if inWindow latest nDays c.time = true then 1 else 0 := by
  split_ifs with hw
  · apply List.count_eq_one_of_mem (collectWindow_nodup h latest nDays l)
    obtain ⟨y, hy, hh, he⟩ := @windowFold_rep h latest nDays l c hw [] hc
    obtain ⟨c', hc', _, rfl⟩ := collectWindow_mem hy
    have := huniq c' hc' hh he
    subst this
    exact hy
  · apply List.count_eq_zero_of_not_mem
    intro hx
    obtain ⟨c', _, hw', he⟩ := collectWindow_mem hx
    rw [← entryOf_injective he] at hw'
    exact hw hw'

theorem runLoop_singleton (m : ReportModel) (x : CommitEntry) :
    runLoop m [x] = runStep m x := by
  simp only [runLoop]
  cases runStep m x <;> rfl

/-- A set in which an entry occurs once gives the report of the other entries
with one more step, for that entry. -/
theorem aggregate_of_count_one {cs : CommitSet} {x : CommitEntry} (hn : cs.Nodup)
    (hx : x ∈ cs) :
    aggregate cs =
      (aggregate (cs.filter (fun e => e != x))).bind (fun m => runStep m x) := by
  have hperm : cs.Perm (cs.filter (fun e => e != x) ++ [x]) := by
    rw [← hn.erase_eq_filter x]
    exact (List.perm_cons_erase hx).trans (List.perm_append_singleton _ _).symm
  rw [aggregate_eq_of_perm hperm]
  unfold aggregate
  rw [runLoop_append]
  congr 1
  funext m
  exact runLoop_singleton m x

theorem hash_ne_of_id_hash_ne (h : StdHash) {a b : CommitEntry} (hauthor : a.author = b.author)
    (htime : a.time = b.time) (hid : h.hashString a.commitId ≠ h.hashString b.commitId) :
    CommitEntryHash h a ≠ CommitEntryHash h b := by
  unfold CommitEntryHash
  rw [hauthor, htime]
  intro he
  exact hid (Nat.xor_left_inj.1 (Nat.xor_left_inj.1 he))

/-- The commit set of `forkRepo` for a window of 50 days, whatever `std::hash`
is: no two different commits of the repository are equal for `operator==`. -/
theorem findCommits_forkRepo_50 (h : StdHash) : findCommits h forkRepo 50 =
    .ok [entryOf forkC3a, entryOf specC2, entryOf specC1, entryOf forkC3b] := by
  have e : findCommits h forkRepo 50 = .ok (collectWindow h 1703383200 50
      [forkC3a, specC2, specC1, forkC3b, specC2, specC1]) := rfl
  have w : ∀ c ∈ [forkC3a, specC2, specC1, forkC3b], inWindow 1703383200 50 c.time = true := by
    decide
  have s₁ : setEmplace h [] (entryOf forkC3a) = [entryOf forkC3a] :=
    setEmplace_new h [] _ rfl
  have s₂ : setEmplace h [entryOf forkC3a] (entryOf specC2) =
      [entryOf forkC3a, entryOf specC2] := setEmplace_new h _ _ rfl
  have s₃ : setEmplace h [entryOf forkC3a, entryOf specC2] (entryOf specC1) =
      [entryOf forkC3a, entryOf specC2, entryOf specC1] := setEmplace_new h _ _ rfl
  have s₄ : setEmplace h [entryOf forkC3a, entryOf specC2, entryOf specC1] (entryOf forkC3b) =
      [entryOf forkC3a, entryOf specC2, entryOf specC1, entryOf forkC3b] :=
    setEmplace_new h _ _ rfl
  have s₅ : setEmplace h [entryOf forkC3a, entryOf specC2, entryOf specC1, entryOf forkC3b]
      (entryOf specC2) = [entryOf forkC3a, entryOf specC2, entryOf specC1, entryOf forkC3b] :=
    setEmplace_old h _ _ (List.mem_cons_of_mem _ (List.mem_cons_self _ _))
  have s₆ : setEmplace h [entryOf forkC3a, entryOf specC2, entryOf specC1, entryOf forkC3b]
      (entryOf specC1) = [entryOf forkC3a, entryOf specC2, entryOf specC1, entryOf forkC3b] :=
    setEmplace_old h _ _
      (List.mem_cons_of_mem _ (List.mem_cons_of_mem _ (List.mem_cons_self _ _)))
  rw [e]
  simp only [collectWindow, List.foldl, w, List.mem_cons, true_or, or_true, if_true,
    s₁, s₂, s₃, s₄, s₅, s₆]

/-- The commit set of `forkRepo` for a window of 5 days, whatever `std::hash`
is. -/
theorem findCommits_forkRepo_5 (h : StdHash) : findCommits h forkRepo 5 =
    .ok [entryOf forkC3a, entryOf forkC3b] := by
  have e : findCommits h forkRepo 5 = .ok (collectWindow h 1703383200 5
      [forkC3a, specC2, specC1, forkC3b, specC2, specC1]) := rfl
  have w : ∀ c ∈ [forkC3a, forkC3b], inWindow 1703383200 5 c.time = true := by
    decide
  have w₂ : inWindow 1703383200 5 specC2.time = false := rfl
  have w₁ : inWindow 1703383200 5 specC1.time = false := rfl
  have s₁ : setEmplace h [] (entryOf forkC3a) = [entryOf forkC3a] :=
    setEmplace_new h [] _ rfl
  have s₂ : setEmplace h [entryOf forkC3a] (entryOf forkC3b) =
      [entryOf forkC3a, entryOf forkC3b] := setEmplace_new h _ _ rfl
  rw [e]
  simp only [collectWindow, List.foldl, w, w₁, w₂, List.mem_cons, true_or, or_true, if_true,
    Bool.false_eq_true, if_false, s₁, s₂]

/-! # The claims -/

/-- C1, counterexample: a commit that adds `2 ^ 32` lines leaves `linesAdded` at
0, while the sum of the insertion counts of the commits of its date and author
is `2 ^ 32`. -/
theorem lineStats_sum_wraps :
    (aggregate [entryOf hugeCommit]).map (fun m => lookupStats m "2023/11/14" "A") =
        some (some ⟨"A", 1, 0, 0⟩) ∧
      ((selected [entryOf hugeCommit] "2023/11/14" "A").map
        (fun e => e.commit.insertions)).sum = 4294967296 := by
  constructor <;> rfl

/-- C1, amended: after the loop of `RepoStats::run` the `LineStats` stored under
a date and an author carries that author; its `commits` is the number of commits
of the set with parent count 1, that author and that date, its `linesAdded` the
sum of their insertion counts and its `linesRemoved` the sum of their deletion
counts, each reduced modulo `2 ^ 32`; there is no entry when no such commit
exists. (The loop completes unless a commit with parent count 1 has a time
stamp that `gmtime` does not convert; the program is then killed and there is
no state after the run.) -/
theorem lineStats_after_run (commitSet : CommitSet) (date author : String) :
    (aggregate commitSet).map (fun m => lookupStats m date author) =
      if killedBy commitSet = true then none
      else some
        (if selected commitSet date author = [] then none
        else some ⟨author, (selected commitSet date author).length % 4294967296,
          ((selected commitSet date author).map (fun e => e.commit.insertions)).sum %
            4294967296,
          ((selected commitSet date author).map (fun e => e.commit.deletions)).sum %
            4294967296⟩) := by
  cases h : aggregate commitSet with
  | none =>
    rw [if_pos ((aggregate_eq_none_iff commitSet).1 h)]
    rfl
  | some m =>
    have hk : ¬ killedBy commitSet = true := by
      intro hk
      rw [(aggregate_eq_none_iff commitSet).2 hk] at h
      cases h
    rw [if_neg hk, Option.map_some', lookupStats_aggregate h]
    rfl

/-- C1, the scenario of the specification: a root commit, a commit by `A` (10
lines added, 2 removed) on the same day and a commit by `B` (5 added, 1
removed) on the next day, with a window of 5 days, give the report
`2023/11/14: A 1/10/2`, `2023/11/15: B 1/5/1`. -/
theorem lineStats_after_run_scenario :
    run (fun _ => some specRepo) exampleHash "repo" 5 =
        some (.ok [("2023/11/14", [⟨"A", 1, 10, 2⟩]), ("2023/11/15", [⟨"B", 1, 5, 1⟩])]) ∧
      (aggregate [entryOf specC3, entryOf specC2, entryOf specC1]).map
        (fun m => lookupStats m "2023/11/14" "A") = some (some ⟨"A", 1, 10, 2⟩) :=
  ⟨rfl, (lineStats_after_run _ "2023/11/14" "A").trans rfl⟩

/-- The characters written for the scenario of the specification. -/
theorem tableText_scenario :
    tableText [("2023/11/14", [⟨"A", 1, 10, 2⟩]), ("2023/11/15", [⟨"B", 1, 5, 1⟩])] =
      "2023/11/14:\n\tA:\n\t\tCommits: 1\n\t\tAdded lines : 10\n\t\tRemoved lines : 2\n" ++
        "2023/11/15:\n\tB:\n\t\tCommits: 1\n\t\tAdded lines : 5\n\t\tRemoved lines : 1\n" := by
  decide

/-- C5: a commit whose parent count is not 1 leaves `dateLineStatsMap` as it
is, and the outcome of the loop is the same as if the commit were not in the
set. -/
theorem runStep_skips_unless_one_parent (m : ReportModel) (entry : CommitEntry)
    (h : entry.commit.parentCount ≠ 1) :
    runStep m entry = some m ∧
      ∀ before after : List CommitEntry,
        runLoop m (before ++ entry :: after) = runLoop m (before ++ after) := by
  have hstep : ∀ m', runStep m' entry = some m' := fun m' => runStep_skip m' entry h
  refine ⟨hstep m, fun before after => ?_⟩
  rw [runLoop_append, runLoop_append]
  congr 1
  funext m'
  simp only [runLoop, hstep]

/-- C5, at the root commit of the scenario and a report with one bucket. -/
theorem runStep_skips_unless_one_parent_witness :
    specC1.parentCount ≠ 1 ∧
      runStep (bucketStep [] "2023/11/14" (entryOf specC2)) (entryOf specC1) =
        some (bucketStep [] "2023/11/14" (entryOf specC2)) :=
  ⟨by decide, (runStep_skips_unless_one_parent _ (entryOf specC1) (by decide)).1⟩

/-- C6, time stamps beyond the years that fit an `int`: for the first second of
the year 2147485548 and the second after it, which lie in the same UTC day,
`gmtime` returns the null pointer, `commitDate` passes it to `strftime` and the
program is killed, so that no date text is returned and the loop of `run` does
not complete. One second earlier `gmtime` still converts, and the year is
printed wrapped to 32 bits. -/
theorem commitDate_killed_beyond_int_year :
    farFuture.time / 86400 = farFutureNext.time / 86400 ∧
      commitDate farFuture = none ∧ commitDate farFutureNext = none ∧
      aggregate [entryOf farFuture, entryOf farFutureNext] = none ∧
      farFuture.time = 86400 * 784352270737 ∧
      lastConverted.time = 86400 * 784352270737 - 1 ∧
      commitDate lastConverted = some "-2147481749/12/31" := by
  refine ⟨by decide, rfl, rfl, rfl, by decide, by decide, rfl⟩

/-- C6, where `commitDate` returns: for two time stamps that `gmtime` converts,
`commitDate` returns two date texts, which are equal exactly when the time
stamps lie in the same UTC day; the last second of a day and the first second
of the next get different texts. -/
theorem commitDate_same_iff_same_day_in_range (c₁ c₂ : GitCommit)
    (h₁ : GmtimeRange c₁.time) (h₂ : GmtimeRange c₂.time) :
    ∃ d₁ d₂, commitDate c₁ = some d₁ ∧ commitDate c₂ = some d₂ ∧
      (d₁ = d₂ ↔ c₁.time / 86400 = c₂.time / 86400) ∧
      (c₂.time = c₁.time + 1 → c₂.time % 86400 = 0 → d₁ ≠ d₂) := by
  obtain ⟨d₁, e₁⟩ := Option.isSome_iff_exists.1 ((commitDate_isSome_iff c₁).2 h₁)
  obtain ⟨d₂, e₂⟩ := Option.isSome_iff_exists.1 ((commitDate_isSome_iff c₂).2 h₂)
  refine ⟨d₁, d₂, e₁, e₂, commitDate_eq_iff_day e₁ e₂, ?_⟩
  intro ht hmod hd
  have := (commitDate_eq_iff_day e₁ e₂).1 hd
  omega

/-- C7, counterexample: of two commits made in the last second of 9999 and in
the first second of 10000, the later one is written first. -/
theorem renderTable_year_10000_first :
    lastOf9999.time / 86400 < firstOf10000.time / 86400 ∧
      (aggregate [entryOf lastOf9999, entryOf firstOf10000]).map
          (fun m => (renderTable m).map Prod.fst) =
        some ["10000/01/01", "9999/12/31"] := by
  constructor
  · decide
  · rfl

/-- C7, amended: for every report model `m` built by the loop of `run`,
`renderTable` writes the dates in strictly ascending order of their texts and,
under each date, the authors in strictly ascending order of their names, each
pair of a date and an author at most once; for commits of the years 1000 to
9999 the date of an earlier day is written before the date of a later day. -/
theorem renderTable_order (commitSet : CommitSet) (m : ReportModel)
    (hm : aggregate commitSet = some m) :
    ((renderTable m).map Prod.fst).Pairwise (fun a b => stringLess a b = true) ∧
      (∀ block ∈ renderTable m,
        (block.2.map LineStats.author).Pairwise (fun a b => stringLess a b = true)) ∧
      ((renderTable m).flatMap
        (fun block => block.2.map (fun stats => (block.1, stats.author)))).Nodup ∧
      (∀ e₁ ∈ commitSet, ∀ e₂ ∈ commitSet,
        e₁.commit.parentCount = 1 → e₂.commit.parentCount = 1 →
        FourDigitYear e₁.commit.time → FourDigitYear e₂.commit.time →
        e₁.commit.time / 86400 < e₂.commit.time / 86400 →
          [commitDate e₁.commit, commitDate e₂.commit].Sublist
            (((renderTable m).map Prod.fst).map some)) := by
  have hw := aggregate_wellFormed hm
  have hdates : ((renderTable m).map Prod.fst).Pairwise
      (fun a b => stringLess a b = true) := by
    rw [renderTable_dates hw]
    exact (keysSorted_iff _).1 hw.1
  refine ⟨hdates, fun block hb => renderTable_authors hw hb, ?_, ?_⟩
  · rw [List.nodup_flatMap]
    constructor
    · intro block hb
      have := pairwise_stringLess_nodup (renderTable_authors hw hb)
      have hinj : Function.Injective (fun a : String => (block.1, a)) := by
        intro a b h
        simpa using h
      have h' := this.map hinj
      rw [List.map_map] at h'
      exact h'
    · have hd := List.pairwise_map.1 hdates
      refine hd.imp ?_
      intro b₁ b₂ hlt
      simp only [Function.onFun, List.disjoint_left, List.mem_map]
      rintro p ⟨s₁, _, rfl⟩ ⟨s₂, _, h₂⟩
      exact stringLess_ne hlt (congrArg Prod.fst h₂).symm
  · intro e₁ he₁ e₂ he₂ hp₁ hp₂ hy₁ hy₂ hlt
    obtain ⟨d₁, hd₁, hmem₁⟩ := commitDate_mem_aggregate hm he₁ hp₁
    obtain ⟨d₂, hd₂, hmem₂⟩ := commitDate_mem_aggregate hm he₂ hp₂
    have hless : stringLess d₁ d₂ = true := by
      have := commitDate_less hy₁ hy₂ hlt
      rw [commitDate_of_fourDigitYear hy₁] at hd₁
      rw [commitDate_of_fourDigitYear hy₂] at hd₂
      cases hd₁
      cases hd₂
      exact this
    rw [hd₁, hd₂]
    have hsub : [d₁, d₂].Sublist ((renderTable m).map Prod.fst) := by
      apply sublist_pair_of_pairwise hdates
      · rw [renderTable_dates hw]; exact hmem₁
      · rw [renderTable_dates hw]; exact hmem₂
      · exact hless
    exact hsub.map some

/-- C7, at the scenario of the specification. -/
theorem renderTable_order_witness :
    [commitDate specC2, commitDate specC3].Sublist
      (((renderTable (bucketStep (bucketStep [] "2023/11/15" (entryOf specC3)) "2023/11/14"
        (entryOf specC2))).map Prod.fst).map some) :=
  (renderTable_order [entryOf specC3, entryOf specC2, entryOf specC1] _ rfl).2.2.2
    (entryOf specC2) (by simp) (entryOf specC3) (by simp) rfl rfl
    (by unfold FourDigitYear; decide) (by unfold FourDigitYear; decide) (by decide)

/-- The outcome of `run` and `main` for a command line that parses: an
exception and exit code 1 when a checked call of libgit2 fails; otherwise the
program is killed when a counted commit of the set has a time stamp that
`gmtime` does not convert, and writes the table and returns 0 when it has
none. -/
theorem main_outcome (git : Git) (h : StdHash) (path : String) (days : Int) :
    (backendFails git path = true →
      ∃ msg, run git h path (intToUi days) = some (.error msg) ∧
        main git h (some (path, days)) = some (1, .what msg)) ∧
    (backendFails git path = false →
      ∃ repo commitSet, git path = some repo ∧
        findCommits h repo (intToUi days) = .ok commitSet ∧
        (killedBy commitSet = true →
          run git h path (intToUi days) = none ∧ main git h (some (path, days)) = none) ∧
        (killedBy commitSet = false →
          ∃ table, run git h path (intToUi days) = some (.ok table) ∧
            main git h (some (path, days)) = some (0, .table table))) := by
  unfold backendFails
  cases hg : git path with
  | none =>
    refine ⟨fun _ => ⟨"Could not find repository", ?_, ?_⟩, fun hf => by simp at hf⟩
    · simp [run, hg]
    · simp [main, run, hg]
  | some repo =>
    constructor
    · intro hf
      obtain ⟨msg, hmsg⟩ := findCommits_error (h := h) (intToUi days) hf
      exact ⟨msg, by simp [run, hg, hmsg], by simp [main, run, hg, hmsg]⟩
    · intro hf
      have hok := findCommits_ok (h := h) (intToUi days) hf
      refine ⟨repo, _, rfl, hok, ?_, ?_⟩
      · intro hk
        have hnone := (aggregate_eq_none_iff _).2 hk
        exact ⟨by simp [run, hg, hok, hnone], by simp [main, run, hg, hok, hnone]⟩
      · intro hk
        cases ha : aggregate (collectWindow h (latestAfter 0 (allCommits repo))
            (intToUi days) (allCommits repo)) with
        | none =>
          rw [(aggregate_eq_none_iff _).1 ha] at hk
          cases hk
        | some m =>
          exact ⟨renderTable m, by simp [run, hg, hok, ha], by simp [main, run, hg, hok, ha]⟩

/-- C8, a run in which no checked call fails and `main` does not return 0: the
repository opens, the walker is created and pushed and every commit is looked
up, but the commit `farFuture` has a time stamp that `gmtime` does not convert,
and the program is killed in `commitDate`, whatever `std::hash` is. -/
theorem main_killed_without_failure :
    backendFails (fun _ => some farRepo) "repo" = false ∧
      (∀ h : StdHash, findCommits h farRepo 5 = .ok [entryOf farFuture]) ∧
      (∀ h : StdHash, run (fun _ => some farRepo) h "repo" 5 = none) ∧
      (∀ h : StdHash, main (fun _ => some farRepo) h (some ("repo", 5)) = none) :=
  ⟨rfl, fun _ => rfl, fun _ => rfl, fun _ => rfl⟩

/-- C10: two orders of processing of the same commits give the same outcome of
the loop: the same report, or the program killed in both. -/
theorem aggregate_order_irrelevant (cs₁ cs₂ : CommitSet) (h : cs₁.Perm cs₂) :
    aggregate cs₁ = aggregate cs₂ :=
  aggregate_eq_of_perm h

/-- C10, at the two orders of two commits of the scenario. -/
theorem aggregate_order_irrelevant_witness :
    [entryOf specC2, entryOf specC3].Perm [entryOf specC3, entryOf specC2] ∧
      aggregate [entryOf specC2, entryOf specC3] = aggregate [entryOf specC3, entryOf specC2] :=
  ⟨List.Perm.swap _ _ _,
    aggregate_order_irrelevant _ _ (List.Perm.swap _ _ _)⟩

/-- C2, the window of 49711 days: the product `nDays*24*3600` is computed as an
`unsigned int` and wraps to 63104, so that a commit 100000 seconds older than
the latest one is dropped, although `100000 <= 49711 * 86400`. -/
theorem window_product_wraps :
    recentCommit.time - epochCommit.time ≤ (49711 : Int) * 86400 ∧
      uiMul (uiMul 49711 24) 3600 = 63104 ∧
      inWindow recentCommit.time 49711 epochCommit.time = false ∧
      ∀ h : StdHash, findCommits h windowRepo 49711 = .ok [entryOf recentCommit] :=
  ⟨by decide, rfl, rfl, fun _ => rfl⟩

/-- C2, below the overflows: when `nDays * 86400` fits an `unsigned int` and the
difference of the time stamps fits 64 bits, a commit is in the window exactly
when it is at most `nDays * 86400` seconds older than the latest commit. -/
theorem inWindow_iff_of_small (latest : Int) (nDays : Nat) (t : Int)
    (h : nDays * 86400 < 4294967296)
    (hfit : -9223372036854775808 ≤ latest - t ∧ latest - t ≤ 9223372036854775807) :
    inWindow latest nDays t = true ↔ latest - t ≤ (nDays : Int) * 86400 := by
  have e : uiMul (uiMul nDays 24) 3600 = nDays * 86400 := by
    unfold uiMul uiModulus
    omega
  have w : int64Wrap (latest - t) = latest - t := by
    unfold int64Wrap
    omega
  simp only [inWindow, e, w, decide_eq_true_eq]
  push_cast
  rfl

/-- C3, commits made before 1970: `latestCommitTime` starts at 0 and stays 0,
above the time stamp -1 of the latest commit, which a window of 0 days then
leaves out. -/
theorem latest_stays_zero_before_1970 :
    scanBranches oldRepo.branches (0, []) = .ok (0, allCommits oldRepo) ∧
      before1970 ∈ allCommits oldRepo ∧
      (∀ c ∈ allCommits oldRepo, c.time ≤ before1970.time) ∧
      inWindow before1970.time 0 before1970.time = true ∧
      ∀ h : StdHash, findCommits h oldRepo 0 = .ok [] :=
  ⟨rfl, by decide, by decide, rfl, fun _ => rfl⟩

/-- C3, from 1970 on: `latestCommitTime` is at least every time stamp seen, and
it is 0 or the time stamp of a commit seen. -/
theorem latestAfter_zero_spec (l : List GitCommit) :
    (∀ c ∈ l, c.time ≤ latestAfter 0 l) ∧
      (latestAfter 0 l = 0 ∨ ∃ c ∈ l, c.time = latestAfter 0 l) := by
  have key : ∀ (l : List GitCommit) (s : Int),
      s ≤ latestAfter s l ∧ (∀ c ∈ l, c.time ≤ latestAfter s l) ∧
        (latestAfter s l = s ∨ ∃ c ∈ l, c.time = latestAfter s l) := by
    intro l
    induction l with
    | nil => intro s; simp [latestAfter]
    | cons c rest ih =>
      intro s
      have e : latestAfter s (c :: rest) =
          latestAfter (if c.time > s then c.time else s) rest := rfl
      rw [e]
      by_cases hgt : c.time > s
      · rw [if_pos hgt]
        obtain ⟨h₁, h₂, h₃⟩ := ih c.time
        refine ⟨by omega, ?_, ?_⟩
        · intro c' hc'
          rcases List.mem_cons.1 hc' with rfl | hc'
          · exact h₁
          · exact h₂ c' hc'
        · rcases h₃ with h₃ | ⟨c', hc', h₃⟩
          · exact Or.inr ⟨c, List.mem_cons_self _ _, h₃.symm⟩
          · exact Or.inr ⟨c', List.mem_cons_of_mem _ hc', h₃⟩
      · rw [if_neg hgt]
        obtain ⟨h₁, h₂, h₃⟩ := ih s
        refine ⟨h₁, ?_, ?_⟩
        · intro c' hc'
          rcases List.mem_cons.1 hc' with rfl | hc'
          · omega
          · exact h₂ c' hc'
        · rcases h₃ with h₃ | ⟨c', hc', h₃⟩
          · exact Or.inl h₃
          · exact Or.inr ⟨c', List.mem_cons_of_mem _ hc', h₃⟩
  exact ⟨(key l 0).2.1, (key l 0).2.2⟩

/-- When the greatest time stamp seen is not negative, `latestCommitTime` is
that time stamp. -/
theorem latestAfter_eq_max {l : List GitCommit} {latest : Int}
    (hmax : ∀ c ∈ l, c.time ≤ latest) (hattained : ∃ c ∈ l, c.time = latest)
    (hnonneg : 0 ≤ latest) : latestAfter 0 l = latest := by
  obtain ⟨h₁, h₂⟩ := latestAfter_zero_spec l
  obtain ⟨c, hc, rfl⟩ := hattained
  have hle := h₁ c hc
  rcases h₂ with h₂ | ⟨c', hc', h₂⟩
  · omega
  · have := hmax c' hc'
    omega

/-- C4, counterexample: the commit `specC2` is reached from both branches; with
a window of 5 days, beyond which it lies by 40 days, it is not in the commit
set at all, and with a window of 50 days the root commit `specC1`, also reached
from both branches, is in the set once and counted in no bucket, whatever
`std::hash` is. -/
theorem shared_commit_not_counted :
    (allCommits forkRepo).count specC2 = 2 ∧
      (∀ c ∈ allCommits forkRepo, c.time ≤ forkC3b.time) ∧
      forkC3b.time - specC2.time > (5 : Int) * 86400 ∧
      (∀ h : StdHash, findCommits h forkRepo 5 = .ok [entryOf forkC3a, entryOf forkC3b]) ∧
      (aggregate [entryOf forkC3a, entryOf forkC3b]).map
        (fun m => lookupStats m "2023/11/14" specC2.authorName) = some none ∧
      (allCommits forkRepo).count specC1 = 2 ∧
      (∀ h : StdHash, findCommits h forkRepo 50 =
        .ok [entryOf forkC3a, entryOf specC2, entryOf specC1, entryOf forkC3b]) ∧
      (aggregate [entryOf forkC3a, entryOf specC2, entryOf specC1, entryOf forkC3b]).map
        (fun m => lookupStats m "2023/11/14" specC1.authorName) = some none :=
  ⟨rfl, by decide, by decide, findCommits_forkRepo_5, rfl, rfl, findCommits_forkRepo_50, rfl⟩

/-- C4, amended: let `latest` be the greatest time stamp of the commits that
the walks produce, not negative, let `nDays * 86400` fit an `unsigned int`,
and let `c` be a commit that the walks produce once or several times, not more
than `2 ^ 63 - 1` seconds older than `latest`, and that no other commit of the
walks equals for `operator==`. Then `c` is in the set returned by
`findCommits` once when `latest - c.time <= nDays * 86400` and not at all
otherwise; and the outcome of the loop of `run` is the outcome for the other
entries of the set, with one iteration for `c` added when `c` lies in the
window and has one parent, and with nothing added otherwise. -/
theorem shared_commit_counted_once (h : StdHash) (repo : Repository) (nDays : Nat)
    (commitSet : CommitSet) (c : GitCommit) (latest : Int)
    (hfind : findCommits h repo nDays = .ok commitSet)
    (hc : c ∈ allCommits repo)
    (hmax : ∀ c' ∈ allCommits repo, c'.time ≤ latest)
    (hattained : ∃ c' ∈ allCommits repo, c'.time = latest)
    (hnonneg : 0 ≤ latest)
    (hsmall : nDays * 86400 < 4294967296)
    (hfit : latest - c.time ≤ 9223372036854775807)
    (huniq : ∀ c' ∈ allCommits repo, (entryOf c).eq (entryOf c') = true → c' = c) :
    commitSet.count (entryOf c) =
        (if latest - c.time ≤ (nDays : Int) * 86400 then 1 else 0) ∧
      aggregate commitSet =
        (if latest - c.time ≤ (nDays : Int) * 86400 ∧ c.parentCount = 1
          then (aggregate (commitSet.filter (fun e => e != entryOf c))).bind
            (fun m => runStep m (entryOf c))
          else aggregate (commitSet.filter (fun e => e != entryOf c))) := by
  have hcs := findCommits_eq_ok hfind
  rw [latestAfter_eq_max hmax hattained hnonneg] at hcs
  have hwin := inWindow_iff_of_small latest nDays c.time hsmall
    ⟨by have := hmax c hc; omega, hfit⟩
  have hcount := collectWindow_count h latest nDays hc (fun c' hc' _ he => huniq c' hc' he)
  rw [← hcs] at hcount
  have hnodup : commitSet.Nodup := by
    rw [hcs]
    exact collectWindow_nodup _ _ _ _
  by_cases hw : latest - c.time ≤ (nDays : Int) * 86400
  · rw [if_pos (hwin.2 hw)] at hcount
    rw [if_pos hw]
    refine ⟨hcount, ?_⟩
    have hmem : entryOf c ∈ commitSet := List.count_pos_iff.1 (by omega)
    have hagg := aggregate_of_count_one hnodup hmem
    by_cases hp : c.parentCount = 1
    · rw [if_pos ⟨hw, hp⟩]
      exact hagg
    · rw [if_neg (fun hh => hp hh.2), hagg]
      cases aggregate (commitSet.filter (fun e => e != entryOf c)) with
      | none => rfl
      | some m => exact runStep_skip m (entryOf c) hp
  · rw [if_neg (fun hh => hw (hwin.1 hh))] at hcount
    rw [if_neg hw, if_neg (fun hh => hw hh.1)]
    refine ⟨hcount, ?_⟩
    have hnot : entryOf c ∉ commitSet := List.count_eq_zero.1 hcount
    have hfilter : commitSet.filter (fun e => e != entryOf c) = commitSet := by
      rw [List.filter_eq_self]
      intro e he
      simp only [bne_iff_ne, ne_eq]
      rintro rfl
      exact hnot he
    rw [hfilter]

/-- C4, at the commit `specC2` shared by the two branches of `forkRepo`, with a
window of 50 days, in which it lies: it is in the set once. -/
theorem shared_commit_counted_once_witness :
    [entryOf forkC3a, entryOf specC2, entryOf specC1, entryOf forkC3b].count (entryOf specC2) =
      (if forkC3b.time - specC2.time ≤ ((50 : Nat) : Int) * 86400 then 1 else 0) := by
  have hfind : findCommits exampleHash forkRepo 50 =
      .ok [entryOf forkC3a, entryOf specC2, entryOf specC1, entryOf forkC3b] :=
    findCommits_forkRepo_50 exampleHash
  have hmem : specC2 ∈ allCommits forkRepo := List.mem_cons_of_mem _ (List.mem_cons_self _ _)
  have hall : ∀ c' ∈ allCommits forkRepo,
      c' = forkC3a ∨ c' = specC2 ∨ c' = specC1 ∨ c' = forkC3b := by
    intro c' hc'
    simp only [allCommits, forkRepo, List.flatMap_cons, List.flatMap_nil, List.filterMap_cons,
      List.filterMap_nil, id, List.append_nil, List.cons_append, List.nil_append,
      List.mem_cons, List.mem_singleton, List.not_mem_nil, or_false] at hc'
    rcases hc' with rfl | rfl | rfl | rfl | rfl | rfl <;> simp
  refine (shared_commit_counted_once exampleHash forkRepo 50 _ specC2 forkC3b.time hfind hmem
    ?_ ⟨forkC3b, by simp [allCommits, forkRepo], rfl⟩ (by decide) (by decide) (by decide) ?_).1
  · intro c' hc'
    rcases hall c' hc' with rfl | rfl | rfl | rfl <;> decide
  · intro c' hc' he
    rcases hall c' hc' with rfl | rfl | rfl | rfl
    all_goals first
      | rfl
      | exact absurd he (by decide)

/-- C9, the hash of `CommitEntryHash` against `operator==`: two entries with the
same author and time stamp are equal for `operator==`, but when `std::hash`
gives their ids different hash codes their own hash codes differ and the set
keeps both. -/
theorem commitSet_keeps_equal_entries (h : StdHash) (a b : CommitEntry)
    (hauthor : a.author = b.author) (htime : a.time = b.time)
    (hid : h.hashString a.commitId ≠ h.hashString b.commitId) :
    a.eq b = true ∧ CommitEntryHash h a ≠ CommitEntryHash h b ∧
      setEmplace h (setEmplace h [] a) b = [a, b] := by
  have hne := hash_ne_of_id_hash_ne h hauthor htime hid
  refine ⟨by simp [CommitEntry.eq, hauthor, htime], hne, ?_⟩
  simp [setEmplace, hne]

/-- C9, at a commit and a cherry-pick of it with the same author and time
stamp: the set returned by `findCommits` holds both, and the report counts two
commits. -/
theorem commitSet_keeps_equal_entries_witness :
    (entryOf pickedC2).eq (entryOf specC2) = true ∧
      findCommits exampleHash ⟨[⟨true, true, [some pickedC2, some specC2]⟩]⟩ 5 =
        .ok [entryOf pickedC2, entryOf specC2] ∧
      setEmplace exampleHash (setEmplace exampleHash [] (entryOf pickedC2)) (entryOf specC2) =
        [entryOf pickedC2, entryOf specC2] :=
  ⟨rfl, rfl,
    (commitSet_keeps_equal_entries exampleHash (entryOf pickedC2) (entryOf specC2) rfl rfl
      (by decide)).2.2⟩

end GitDailyLineStats
